import Mathlib

/-!
Verification of the realclientip strategy engine.

The Go source (realclientip.go) is shallowly embedded here.  Go strings are
modelled as `List Char` (all inputs of interest are ASCII, where Go's
byte-level operations and the character-level operations below agree).
Go `net.IP` byte slices are modelled as `List Nat` with each byte `< 256`.
Functions of the Go standard library used by the package (`net.ParseIP` via
`netip.ParseAddr`, `net.SplitHostPort`, `net.IP.String`, `net.ParseCIDR`,
`net.IPNet.Contains`, `http.CanonicalHeaderKey`, `strings` helpers) are
embedded from their stdlib sources.  Run-time panics of the evaluation path
(the `trimMatchedEnds` guard and slice indexing) are modelled with an
`Except` monad whose error carries the panic message.
-/

namespace Realclientip

/-- Convert a Lean string literal to the character list used throughout. -/
def str (s : String) : List Char := s.data

/-- Whitespace recognized by Go `strings.TrimSpace` on the ASCII range
(tab, newline, vertical tab, form feed, carriage return, space); the
non-ASCII Unicode space characters do not occur in header values modelled
here. -/
def isGoSpace (c : Char) : Bool :=
  c.toNat == 32 || (9 ≤ c.toNat && c.toNat ≤ 13)

/-- Go `strings.TrimSpace`. -/
def trimSpace (s : List Char) : List Char :=
  ((s.dropWhile isGoSpace).reverse.dropWhile isGoSpace).reverse

/-- Go `strings.Split` with a one-character separator: `n` separators yield
`n+1` pieces; splitting the empty string yields one empty piece. -/
def splitOn (sep : Char) : List Char → List (List Char)
  | [] => [[]]
  | c :: cs =>
    let rest := splitOn sep cs
    if c == sep then [] :: rest
    else
      match rest with
      | [] => [[c]]
      | p :: ps => (c :: p) :: ps

/-- Split at the first occurrence of `c` (Go `strings.IndexByte` uses);
returns the parts strictly before and after that occurrence. -/
def splitAtFirst (c : Char) : List Char → Option (List Char × List Char)
  | [] => none
  | x :: xs =>
    if x == c then some ([], xs)
    else (splitAtFirst c xs).map (fun p => (x :: p.1, p.2))

/-- Split at the last occurrence of `c` (Go `strings.LastIndexByte` uses). -/
def splitAtLast (c : Char) (s : List Char) : Option (List Char × List Char) :=
  match splitAtFirst c s.reverse with
  | some (t, h) => some (h.reverse, t.reverse)
  | none => none

/-- ASCII lower-casing, as Go `strings.EqualFold` performs on ASCII letters
(the only characters compared against `"for"` in this package). -/
def toLowerCh (c : Char) : Char :=
  if 65 ≤ c.toNat && c.toNat ≤ 90 then Char.ofNat (c.toNat + 32) else c

/-- ASCII upper-casing. -/
def toUpperCh (c : Char) : Char :=
  if 97 ≤ c.toNat && c.toNat ≤ 122 then Char.ofNat (c.toNat - 32) else c

/-- Go `strings.EqualFold`, restricted to ASCII folding. -/
def equalFold (a b : List Char) : Bool :=
  a.map toLowerCh == b.map toLowerCh

/-! ### Go net/netip address parsing -/

def isDigitCh (c : Char) : Bool := 48 ≤ c.toNat && c.toNat ≤ 57

def isHexDigitCh (c : Char) : Bool :=
  isDigitCh c || (97 ≤ c.toNat && c.toNat ≤ 102) || (65 ≤ c.toNat && c.toNat ≤ 70)

/-- Numeric value of a decimal digit string. -/
def decVal (s : List Char) : Nat :=
  s.foldl (fun a c => a * 10 + (c.toNat - 48)) 0

/-- Numeric value of one hex digit. -/
def hexVal1 (c : Char) : Nat :=
  if isDigitCh c then c.toNat - 48
  else if 97 ≤ c.toNat then c.toNat - 87
  else c.toNat - 55

/-- Numeric value of a hex digit string. -/
def hexValG (s : List Char) : Nat :=
  s.foldl (fun a c => a * 16 + hexVal1 c) 0

/-- One field of a dotted-quad per `netip` `parseIPv4Fields`: at least one
digit, digits only, no leading zero, value at most 255. -/
def validV4Field (f : List Char) : Bool :=
  !f.isEmpty && f.all isDigitCh && (f.length == 1 || f.head? != some '0') &&
    decVal f ≤ 255

/-- Go `netip` IPv4 parsing (`parseIPv4Fields`): exactly four valid
dot-separated fields.  Returns the four byte values. -/
def parseV4Fields (s : List Char) : Option (List Nat) :=
  match splitOn '.' s with
  | [a, b, c, d] =>
    if validV4Field a && validV4Field b && validV4Field c && validV4Field d then
      some [decVal a, decVal b, decVal c, decVal d]
    else none
  | _ => none

/-- A 16-bit group of an IPv6 address: one to four hex digits
(`netip` rejects groups of more than four digits). -/
def validHexGroup (f : List Char) : Bool :=
  !f.isEmpty && f.length ≤ 4 && f.all isHexDigitCh

/-- The two bytes of a 16-bit group value. -/
def groupBytes (g : Nat) : List Nat := [g / 256, g % 256]

/-- Split an IPv6 body at the first occurrence of the `::` ellipsis. -/
def splitFirstEllipsis : List Char → Option (List Char × List Char)
  | ':' :: ':' :: rest => some ([], rest)
  | c :: rest => (splitFirstEllipsis rest).map (fun p => (c :: p.1, p.2))
  | [] => none

/-- Parse one side of an IPv6 address (no `::` inside): colon-separated
hex groups, where only the final group may be an embedded dotted-quad IPv4
(counting as two groups), and only when `allowV4` is set (`netip` rejects an
embedded IPv4 that is not at the very end).  Returns the group bytes. -/
def parseGroups (s : List Char) (allowV4 : Bool) : Option (List Nat) :=
  if s.isEmpty then some []
  else
    let fs := splitOn ':' s
    match fs.getLast? with
    | none => none
    | some lastF =>
      let init := fs.dropLast
      if !init.all validHexGroup then none
      else
        let initBytes := init.flatMap (fun g => groupBytes (hexValG g))
        if lastF.contains '.' then
          if allowV4 then (parseV4Fields lastF).map (fun v4 => initBytes ++ v4)
          else none
        else if validHexGroup lastF then
          some (initBytes ++ groupBytes (hexValG lastF))
        else none

/-- Go `netip` IPv6 parsing (`parseIPv6`): an optional `%zone` suffix is
split at the first `%` (and must be non-empty); at most one `::`, which must
stand for at least one zero group; without `::` exactly eight groups are
required.  Returns the sixteen address bytes and the zone. -/
def parseIPv6 (s0 : List Char) : Option (List Nat × List Char) := do
  let (s, zone) ←
    match splitAtFirst '%' s0 with
    | none => some (s0, ([] : List Char))
    | some (body, z) => if z.isEmpty then none else some (body, z)
  match splitFirstEllipsis s with
  | none => do
    let bytes ← parseGroups s true
    if bytes.length == 16 then some (bytes, zone) else none
  | some (l, r) => do
    let lb ← parseGroups l false
    let rb ← parseGroups r true
    if lb.length + rb.length ≤ 14 then
      some (lb ++ List.replicate (16 - lb.length - rb.length) 0 ++ rb, zone)
    else none

/-- The twelve leading bytes of an IPv4-mapped IPv6 address
(Go `v4InV6Prefix`). -/
def v4InV6Pre : List Nat := [0, 0, 0, 0, 0, 0, 0, 0, 0, 0, 255, 255]

/-- Go `netip.ParseAddr`, restricted to the data returned through `net`:
dispatches on the first of `.`, `:`, `%` in the string; returns the sixteen
address bytes (IPv4 results in 4-in-6 mapped form, per `Addr.As16`), whether
the address is a plain IPv4 (`Addr.Is4`), and the zone. -/
def netipParseAddr (s : List Char) : Option (List Nat × Bool × List Char) :=
  match s.find? (fun c => c == '.' || c == ':' || c == '%') with
  | some c =>
    if c == '.' then (parseV4Fields s).map (fun f => (v4InV6Pre ++ f, true, []))
    else if c == ':' then (parseIPv6 s).map (fun p => (p.1, false, p.2))
    else none
  | none => none

/-- Go `net.ParseIP`: `netip.ParseAddr`, rejecting any zone, returning the
16-byte form. -/
def ParseIP (s : List Char) : Option (List Nat) :=
  match netipParseAddr s with
  | some (b, _, z) => if z.isEmpty then some b else none
  | none => none

/-! ### Go net IP predicates, ranges, and printing -/

/-- Go `IP.To4`: the 4-byte form of an address, when it is IPv4 or
IPv4-mapped IPv6; `none` models Go's nil result. -/
def to4 (ip : List Nat) : Option (List Nat) :=
  if ip.length == 4 then some ip
  else if ip.length == 16 && ip.take 12 == v4InV6Pre then some (ip.drop 12)
  else none

/-- Go `IP.Equal`: equality up to the 4-byte/16-byte representation of an
IPv4 address. -/
def ipEqual (a b : List Nat) : Bool :=
  if a.length == b.length then a == b
  else if a.length == 4 && b.length == 16 then
    b.take 12 == v4InV6Pre && b.drop 12 == a
  else if a.length == 16 && b.length == 4 then
    a.take 12 == v4InV6Pre && a.drop 12 == b
  else false

/-- Go `IP.IsUnspecified`: equal to `0.0.0.0` or to `::`. -/
def isUnspecified (ip : List Nat) : Bool :=
  ipEqual ip [0, 0, 0, 0] || ipEqual ip (List.replicate 16 0)

/-- Go `net.IPNet`. -/
structure IPNet where
  ip : List Nat
  mask : List Nat
deriving DecidableEq, Repr

/-- Go `net.CIDRMask ones bits` as a byte list. -/
def cidrMask (ones bits : Nat) : List Nat :=
  (List.range (bits / 8)).map (fun i => 256 - 2 ^ (8 - min (ones - i * 8) 8))

/-- Go `IP.Mask`: byte-wise AND after aligning a 4-byte address with a
16-byte mask or vice versa; `[]` models Go's nil result on length
mismatch. -/
def maskIP (ip0 mask0 : List Nat) : List Nat :=
  let mask :=
    if mask0.length == 16 && ip0.length == 4 &&
        mask0.take 12 == List.replicate 12 255 then mask0.drop 12 else mask0
  let ip :=
    if mask.length == 4 && ip0.length == 16 && ip0.take 12 == v4InV6Pre then
      ip0.drop 12
    else ip0
  if ip.length != mask.length then []
  else (ip.zip mask).map (fun p => Nat.land p.1 p.2)

/-- Go `networkNumberAndMask`: the range's address in 4-byte form when
possible, with the mask truncated to match; `([], [])` models the nil, nil
result. -/
def networkNumberAndMask (n : IPNet) : List Nat × List Nat :=
  let ip :=
    match to4 n.ip with
    | some p => p
    | none => if n.ip.length == 16 then n.ip else []
  if ip.isEmpty then ([], [])
  else if n.mask.length == 4 then
    if ip.length == 4 then (ip, n.mask) else ([], [])
  else if n.mask.length == 16 then
    (ip, if ip.length == 4 then n.mask.drop 12 else n.mask)
  else ([], [])

/-- Go `IPNet.Contains`. -/
def ipNetContains (n : IPNet) (target : List Nat) : Bool :=
  let p := networkNumberAndMask n
  let ip := match to4 target with | some x => x | none => target
  ip.length == p.1.length &&
    ((ip.zip (p.1.zip p.2)).all fun t =>
      Nat.land t.2.1 t.2.2 == Nat.land t.1 t.2.2)

/-- Go `net.ParseCIDR`: address before the first `/` (parsed by
`netip.ParseAddr`, no zone), decimal prefix length after it (at most the
family bit length); the returned `IPNet` holds the masked network address. -/
def parseCIDR (s : List Char) : Option IPNet :=
  match splitAtFirst '/' s with
  | none => none
  | some (addr, maskStr) =>
    match netipParseAddr addr with
    | none => none
    | some (b16, is4, zone) =>
      if !zone.isEmpty then none
      else
        let bitLen := if is4 then 32 else 128
        if maskStr.isEmpty || !maskStr.all isDigitCh || decVal maskStr > bitLen
        then none
        else
          let m := cidrMask (decVal maskStr) bitLen
          let ip := if is4 then b16.drop 12 else b16
          some ⟨maskIP ip m, m⟩

/-- Decimal digits of a byte value (`netip` prints IPv4 bytes with up to
three digits and no leading zeros). -/
def digitCh (n : Nat) : Char := Char.ofNat (48 + n)

def byteToDec (n : Nat) : List Char :=
  if n < 10 then [digitCh n]
  else if n < 100 then [digitCh (n / 10), digitCh (n % 10)]
  else [digitCh (n / 100), digitCh (n / 10 % 10), digitCh (n % 10)]

/-- Join pieces with a one-character separator (the loops of Go `IP.String`
append a separator before every piece but the first). -/
def joinSep (sep : Char) : List (List Char) → List Char
  | [] => []
  | [p] => p
  | p :: q :: ps => p ++ sep :: joinSep sep (q :: ps)

/-- Dotted-quad form of four bytes. -/
def string4 (bs : List Nat) : List Char :=
  joinSep '.' (bs.map byteToDec)

/-- Lowercase hex digit. -/
def hexDigitCh (n : Nat) : Char :=
  if n < 10 then Char.ofNat (48 + n) else Char.ofNat (87 + n)

/-- Lowercase hex digits of a 16-bit group, no leading zeros
(Go `appendHex`). -/
def groupToHex (n : Nat) : List Char :=
  if n < 16 then [hexDigitCh n]
  else if n < 256 then [hexDigitCh (n / 16), hexDigitCh (n % 16)]
  else if n < 4096 then
    [hexDigitCh (n / 256), hexDigitCh (n / 16 % 16), hexDigitCh (n % 16)]
  else
    [hexDigitCh (n / 4096), hexDigitCh (n / 256 % 16), hexDigitCh (n / 16 % 16),
      hexDigitCh (n % 16)]

/-- The 16-bit groups of a 16-byte address. -/
def toGroups : List Nat → List Nat
  | a :: b :: rest => (a * 256 + b) :: toGroups rest
  | _ => []

/-- Length of the run of zero groups starting at index `i`. -/
def zeroRunLen (gs : List Nat) (i : Nat) : Nat :=
  ((gs.drop i).takeWhile (fun g => g == 0)).length

/-- The leftmost longest run of zero groups (Go `IP.String` keeps a run only
on strict improvement, so the leftmost longest run wins). -/
def bestZeroRun (gs : List Nat) : Nat × Nat :=
  (List.range gs.length).foldl
    (fun best i => if zeroRunLen gs i > best.2 then (i, zeroRunLen gs i) else best)
    (0, 0)

/-- The zero run elided as `::`, if its length is at least two groups
(Go: "The symbol '::' MUST NOT be used to shorten just one 16 bit 0
field."). -/
def findZeroRun (gs : List Nat) : Option (Nat × Nat) :=
  if 2 ≤ (bestZeroRun gs).2 then some (bestZeroRun gs) else none

/-- Canonical IPv6 text of eight groups. -/
def string6 (gs : List Nat) : List Char :=
  match findZeroRun gs with
  | none => joinSep ':' (gs.map groupToHex)
  | some (s, l) =>
    joinSep ':' ((gs.take s).map groupToHex) ++ [':', ':'] ++
      joinSep ':' ((gs.drop (s + l)).map groupToHex)

/-- Two hex digits per byte (Go `hexString`, used for malformed lengths). -/
def hexPairs (bs : List Nat) : List Char :=
  bs.flatMap (fun b => [hexDigitCh (b / 16 % 16), hexDigitCh (b % 16)])

/-- Go `IP.String`. -/
def ipString (ip : List Nat) : List Char :=
  if ip.isEmpty then str "<nil>"
  else
    match to4 ip with
    | some p4 => string4 p4
    | none =>
      if ip.length != 16 then '?' :: hexPairs ip else string6 (toGroups ip)

/-- Go `net.IPAddr`: address bytes plus IPv6 zone. -/
structure IPAddr where
  ip : List Nat
  zone : List Char
deriving DecidableEq, Repr

/-- Go `ipEmptyString`: empty for a nil IP. -/
def ipEmptyString (ip : List Nat) : List Char :=
  if ip.isEmpty then [] else ipString ip

/-- Go `IPAddr.String`. -/
def IPAddr.string (a : IPAddr) : List Char :=
  if a.zone.isEmpty then ipEmptyString a.ip
  else ipEmptyString a.ip ++ '%' :: a.zone

/-- Go `net.SplitHostPort`; `none` models an error result.  The port starts
after the last colon; a bracketed host must be followed exactly by the final
colon; an unbracketed host must contain no colon. -/
def splitHostPort (s : List Char) : Option (List Char × List Char) :=
  match s with
  | [] => none
  | c0 :: rest =>
    if !s.contains ':' then none
    else if c0 == '[' then
      match splitAtFirst ']' rest with
      | none => none
      | some (h, t) =>
        match t with
        | [] => none
        | ':' :: p =>
          if p.contains ':' then none
          else if h.contains '[' || t.contains '[' || t.contains ']' then none
          else some (h, p)
        | _ :: _ => none
    else
      match splitAtLast ':' s with
      | none => none
      | some (h, p) =>
        if h.contains ':' then none
        else if s.contains '[' || s.contains ']' then none
        else some (h, p)

/-- `realclientip.SplitHostZone`: split `host%zone` at the last `%`, only
when that `%` is not the first character. -/
def SplitHostZone (s : List Char) : List Char × List Char :=
  match splitAtLast '%' s with
  | some (h, z) => if h.isEmpty then (s, []) else (h, z)
  | none => (s, [])

/-! ### The realclientip package -/

/-- Evaluation-path results: `.error` carries a Go panic message, `.ok` a
normal return value. -/
abbrev GoExc (α : Type) := Except (List Char) α

/-- `realclientip.trimMatchedEnds`: trims `s` iff its first byte matches the
first byte of `chars` and its last byte matches the last; panics unless
`chars` has length 1 or 2. -/
def trimMatchedEnds (s chars : List Char) : GoExc (List Char) :=
  if chars.length != 1 && chars.length != 2 then
    .error (str "trimMatchedEnds chars must be length 1 or 2")
  else
    let first := chars.headD ' '
    let last := chars.getLastD ' '
    if s.length < 2 then .ok s
    else if s.head? != some first then .ok s
    else if s.getLast? != some last then .ok s
    else .ok ((s.drop 1).dropLast)

/-- `realclientip.ParseIPAddr`: strip a port with `net.SplitHostPort`
(tolerating its failure), trim one matched pair of square brackets, split
off the zone, and parse with `net.ParseIP`; `none` models the error
return. -/
def ParseIPAddr (ipStr : List Char) : GoExc (Option IPAddr) := do
  let s1 :=
    match splitHostPort ipStr with
    | some (host, _) => host
    | none => ipStr
  let s2 ← trimMatchedEnds s1 (str "[]")
  let (s3, zone) := SplitHostZone s2
  match ParseIP s3 with
  | none => return none
  | some ip => return some ⟨ip, zone⟩

/-- `realclientip.goodIPAddr`: `ParseIPAddr` plus rejection of unspecified
addresses; `none` models the nil result. -/
def goodIPAddr (ipStr : List Char) : GoExc (Option IPAddr) := do
  match ← ParseIPAddr ipStr with
  | none => return none
  | some a => if isUnspecified a.ip then return none else return some a

/-- The scan of `parseForwardedListItem` over the semicolon-separated parts:
trim each part, split it on `=`; a part that does not split into exactly two
pieces is skipped; the first part whose key case-insensitively equals `for`
ends the scan with its value.  The Go zero value `""` results when no part
matches. -/
def findForValue : List (List Char) → List Char
  | [] => []
  | fp :: rest =>
    match splitOn '=' (trimSpace fp) with
    | [k, v] => if equalFold k (str "for") then v else findForValue rest
    | _ => findForValue rest

/-- `realclientip.parseForwardedListItem`. -/
def parseForwardedListItem (fwd : List Char) : GoExc (Option IPAddr) := do
  let forPart := findForValue (splitOn ';' fwd)
  let forPart := trimSpace forPart
  let forPart ← trimMatchedEnds forPart (str "\x22")
  if forPart.isEmpty then return none
  else goodIPAddr forPart

/-- `http.Header`: a lookup from canonical header name to the ordered list
of instances of that header. -/
abbrev Headers := List Char → List (List Char)

/-- `realclientip.lastHeader`: last instance of the header, or empty. -/
def lastHeader (headers : Headers) (headerName : List Char) : List Char :=
  (headers headerName).getLastD []

def xForwardedForHdr : List Char := str "X-Forwarded-For"

def forwardedHdr : List Char := str "Forwarded"

/-- One comma-separated list item of `getIPAddrList`: trim it, then parse it
as a `Forwarded` item or as a bare address according to the header. -/
def parseListItem (headerName rawListItem : List Char) : GoExc (Option IPAddr) :=
  let item := trimSpace rawListItem
  if headerName == forwardedHdr then parseForwardedListItem item
  else goodIPAddr item

/-- The instance loop of `realclientip.getIPAddrList`: split each header
instance on commas and append one parse result per item. -/
def getIPAddrListAux (headerName : List Char) :
    List (List Char) → GoExc (List (Option IPAddr))
  | [] => .ok []
  | h :: hs => do
    let items ← (splitOn ',' h).mapM (parseListItem headerName)
    let rest ← getIPAddrListAux headerName hs
    return items ++ rest

/-- `realclientip.getIPAddrList`. -/
def getIPAddrList (headers : Headers) (headerName : List Char) :
    GoExc (List (Option IPAddr)) :=
  getIPAddrListAux headerName (headers headerName)

/-- Byte allowed in a header field name (Go `textproto`
`validHeaderFieldByte`): letters, digits, and the RFC 7230 token
specials. -/
def validHeaderFieldCh (c : Char) : Bool :=
  isDigitCh c || (97 ≤ c.toNat && c.toNat ≤ 122) || (65 ≤ c.toNat && c.toNat ≤ 90) ||
    [33, 35, 36, 37, 38, 39, 42, 43, 45, 46, 94, 95, 96, 124, 126].contains c.toNat

/-- The case transform of `textproto.CanonicalMIMEHeaderKey`: upper-case
the first byte and every byte after a hyphen, lower-case the rest. -/
def canonTransform : Bool → List Char → List Char
  | _, [] => []
  | upper, c :: cs =>
    let c' := if upper then toUpperCh c else toLowerCh c
    c' :: canonTransform (c' == '-') cs

/-- `http.CanonicalHeaderKey`: the case transform, applied only when every
byte is a valid header field byte (otherwise the key is returned
unchanged). -/
def canonicalHeaderKey (s : List Char) : List Char :=
  if s.all validHeaderFieldCh then canonTransform true s else s

/-! ### Strategies -/

/-- `realclientip.RemoteAddrStrategy.ClientIP`. -/
def RemoteAddrClientIP (_headers : Headers) (remoteAddr : List Char) :
    GoExc (List Char) := do
  match ← goodIPAddr remoteAddr with
  | none => return []
  | some a => return a.string

structure SingleIPHeaderStrategy where
  headerName : List Char
deriving DecidableEq, Repr

/-- `realclientip.NewSingleIPHeaderStrategy`; `.error` carries the message
of the returned error. -/
def NewSingleIPHeaderStrategy (headerName : List Char) :
    Except (List Char) SingleIPHeaderStrategy :=
  if headerName.isEmpty then
    .error (str "SingleIPHeaderStrategy header must not be empty")
  else if canonicalHeaderKey headerName == xForwardedForHdr ||
      canonicalHeaderKey headerName == forwardedHdr then
    .error (str "SingleIPHeaderStrategy header must not be X-Forwarded-For or Forwarded")
  else .ok ⟨canonicalHeaderKey headerName⟩

/-- `SingleIPHeaderStrategy.ClientIP`. -/
def SingleIPHeaderStrategy.ClientIP (strat : SingleIPHeaderStrategy)
    (headers : Headers) (_remoteAddr : List Char) : GoExc (List Char) := do
  let ipStr := lastHeader headers strat.headerName
  if ipStr.isEmpty then return []
  else
    match ← goodIPAddr ipStr with
    | none => return []
    | some a => return a.string

structure LeftmostNonPrivateStrategy where
  headerName : List Char
deriving DecidableEq, Repr

/-- `realclientip.NewLeftmostNonPrivateStrategy`. -/
def NewLeftmostNonPrivateStrategy (headerName : List Char) :
    Except (List Char) LeftmostNonPrivateStrategy :=
  if headerName.isEmpty then
    .error (str "LeftmostNonPrivateStrategy header must not be empty")
  else if canonicalHeaderKey headerName != xForwardedForHdr &&
      canonicalHeaderKey headerName != forwardedHdr then
    .error (str "LeftmostNonPrivateStrategy header must be X-Forwarded-For or Forwarded")
  else .ok ⟨canonicalHeaderKey headerName⟩

structure RightmostNonPrivateStrategy where
  headerName : List Char
deriving DecidableEq, Repr

/-- `realclientip.NewRightmostNonPrivateStrategy`. -/
def NewRightmostNonPrivateStrategy (headerName : List Char) :
    Except (List Char) RightmostNonPrivateStrategy :=
  if headerName.isEmpty then
    .error (str "RightmostNonPrivateStrategy header must not be empty")
  else if canonicalHeaderKey headerName != xForwardedForHdr &&
      canonicalHeaderKey headerName != forwardedHdr then
    .error (str "RightmostNonPrivateStrategy header must be X-Forwarded-For or Forwarded")
  else .ok ⟨canonicalHeaderKey headerName⟩

structure RightmostTrustedCountStrategy where
  headerName : List Char
  trustedCount : Int
deriving DecidableEq, Repr

/-- `realclientip.NewRightmostTrustedCountStrategy` (the header name is
checked after the count, as in the source; the accepted set is the same). -/
def NewRightmostTrustedCountStrategy (headerName : List Char)
    (trustedCount : Int) : Except (List Char) RightmostTrustedCountStrategy :=
  if headerName.isEmpty then
    .error (str "RightmostTrustedCountStrategy header must not be empty")
  else if trustedCount ≤ 0 then
    .error (str "RightmostTrustedCountStrategy count must be greater than zero")
  else if canonicalHeaderKey headerName != xForwardedForHdr &&
      canonicalHeaderKey headerName != forwardedHdr then
    .error (str "RightmostNonPrivateStrategy header must be X-Forwarded-For or Forwarded")
  else .ok ⟨canonicalHeaderKey headerName, trustedCount⟩

structure RightmostTrustedRangeStrategy where
  headerName : List Char
  trustedRanges : List IPNet
deriving DecidableEq, Repr

/-- `realclientip.NewRightmostTrustedRangeStrategy`. -/
def NewRightmostTrustedRangeStrategy (headerName : List Char)
    (trustedRanges : List IPNet) : Except (List Char) RightmostTrustedRangeStrategy :=
  if headerName.isEmpty then
    .error (str "RightmostTrustedRangeStrategy header must not be empty")
  else if canonicalHeaderKey headerName != xForwardedForHdr &&
      canonicalHeaderKey headerName != forwardedHdr then
    .error (str "RightmostTrustedRangeStrategy header must be X-Forwarded-For or Forwarded")
  else .ok ⟨canonicalHeaderKey headerName, trustedRanges⟩

/-- `realclientip.AddressesAndRangesToIPNets`; `.error` models the error
return (messages abbreviated). -/
def AddressesAndRangesToIPNets : List (List Char) → Except (List Char) (List IPNet)
  | [] => .ok []
  | r :: rest =>
    if r.contains '%' then .error (str "zones are not allowed")
    else if r.contains '/' then
      match parseCIDR r with
      | none => .error (str "net.ParseCIDR failed")
      | some ipNet => (AddressesAndRangesToIPNets rest).map (fun l => ipNet :: l)
    else
      match ParseIP r with
      | none => .error (str "net.ParseIP failed")
      | some ip =>
        let ip := match to4 ip with | some v => v | none => ip
        (AddressesAndRangesToIPNets rest).map
          (fun l => ⟨ip, cidrMask (ip.length * 8) (ip.length * 8)⟩ :: l)

/-- The CIDR literals of `realclientip.privateAndLocalRanges`. -/
def privateAndLocalCIDRStrings : List (List Char) :=
  [str "10.0.0.0/8", str "172.16.0.0/12", str "192.168.0.0/16", str "127.0.0.0/8",
    str "0.0.0.0/8", str "169.254.0.0/16", str "192.0.0.0/24", str "192.0.2.0/24",
    str "198.51.100.0/24", str "203.0.113.0/24", str "192.88.99.0/24",
    str "192.18.0.0/15", str "224.0.0.0/4", str "240.0.0.0/4",
    str "255.255.255.255/32", str "100.64.0.0/10", str "::/128", str "::1/128",
    str "100::/64", str "2001::/23", str "2001:2::/48", str "2001:db8::/32",
    str "2001::/32", str "fc00::/7", str "fe80::/10", str "ff00::/8", str "2002::/16"]

/-- `realclientip.privateAndLocalRanges` (each literal parses, see
`privateAndLocalRanges_length`, so `filterMap` drops nothing and
`mustParseCIDR` never panics). -/
def privateAndLocalRanges : List IPNet :=
  privateAndLocalCIDRStrings.filterMap parseCIDR

/-- `realclientip.isIPContainedInRanges`. -/
def isIPContainedInRanges (ip : List Nat) (ranges : List IPNet) : Bool :=
  ranges.any (fun r => ipNetContains r ip)

/-- `realclientip.isPrivateOrLocal`. -/
def isPrivateOrLocal (ip : List Nat) : Bool :=
  isIPContainedInRanges ip privateAndLocalRanges

/-- The scan of `LeftmostNonPrivateStrategy.ClientIP`: first valid,
non-private entry. -/
def leftmostScan : List (Option IPAddr) → List Char
  | [] => []
  | some a :: rest =>
    if !isPrivateOrLocal a.ip then a.string else leftmostScan rest
  | none :: rest => leftmostScan rest

/-- `LeftmostNonPrivateStrategy.ClientIP`. -/
def LeftmostNonPrivateStrategy.ClientIP (strat : LeftmostNonPrivateStrategy)
    (headers : Headers) (_remoteAddr : List Char) : GoExc (List Char) := do
  let ipAddrs ← getIPAddrList headers strat.headerName
  return leftmostScan ipAddrs

/-- `RightmostNonPrivateStrategy.ClientIP`: the source's downward index loop
is the leftmost scan of the reversed list. -/
def RightmostNonPrivateStrategy.ClientIP (strat : RightmostNonPrivateStrategy)
    (headers : Headers) (_remoteAddr : List Char) : GoExc (List Char) := do
  let ipAddrs ← getIPAddrList headers strat.headerName
  return leftmostScan ipAddrs.reverse

/-- `RightmostTrustedCountStrategy.ClientIP`, indexing modelled on Go `int`
(`Int`); an out-of-range index is the panic case of `GoExc` (it is
unreachable for constructed strategies, see claim C6). -/
def RightmostTrustedCountStrategy.ClientIP (strat : RightmostTrustedCountStrategy)
    (headers : Headers) (_remoteAddr : List Char) : GoExc (List Char) := do
  let ipAddrs ← getIPAddrList headers strat.headerName
  let rightmostIndex : Int := (ipAddrs.length : Int) - 1
  let targetIndex : Int := rightmostIndex - (strat.trustedCount - 1)
  if targetIndex < 0 then return []
  else
    if h : targetIndex.toNat < ipAddrs.length then
      match ipAddrs.get ⟨targetIndex.toNat, h⟩ with
      | none => return []
      | some a => return a.string
    else .error (str "runtime error: index out of range")

/-- The scan of `RightmostTrustedRangeStrategy.ClientIP` over the reversed
candidate list: skip trusted valid entries; stop at the first other entry,
failing if it is invalid. -/
def rightmostUntrustedScan (ranges : List IPNet) : List (Option IPAddr) → List Char
  | [] => []
  | some a :: rest =>
    if isIPContainedInRanges a.ip ranges then rightmostUntrustedScan ranges rest
    else a.string
  | none :: _ => []

/-- `RightmostTrustedRangeStrategy.ClientIP`: the source's downward index
loop is the scan of the reversed list. -/
def RightmostTrustedRangeStrategy.ClientIP (strat : RightmostTrustedRangeStrategy)
    (headers : Headers) (_remoteAddr : List Char) : GoExc (List Char) := do
  let ipAddrs ← getIPAddrList headers strat.headerName
  return rightmostUntrustedScan strat.trustedRanges ipAddrs.reverse

/-! ### Helper lemmas: splitting and searching character lists -/

theorem bind_ok {α β : Type} (a : α) (k : α → GoExc β) :
    (Except.ok a >>= k : GoExc β) = k a := rfl

theorem contains_false {c : Char} {s : List Char} :
    s.contains c = false ↔ c ∉ s := by simp

theorem splitAtFirst_not_contains {c : Char} {s : List Char} (h : c ∉ s) :
    splitAtFirst c s = none := by
  induction s with
  | nil => rfl
  | cons x xs ih =>
    simp only [List.mem_cons, not_or] at h
    simp only [splitAtFirst]
    rw [if_neg (by simp only [beq_iff_eq]; exact fun hx => h.1 hx.symm),
      ih h.2]
    rfl

theorem splitAtFirst_append_hit {c : Char} {p : List Char}
    (h : c ∉ p) (rest : List Char) :
    splitAtFirst c (p ++ c :: rest) = some (p, rest) := by
  induction p with
  | nil => simp [splitAtFirst]
  | cons x xs ih =>
    simp only [List.mem_cons, not_or] at h
    simp only [List.cons_append, splitAtFirst, List.append_eq]
    rw [if_neg (by simp only [beq_iff_eq]; exact fun hx => h.1 hx.symm),
      ih h.2]
    rfl

theorem splitAtFirst_eq_some {c : Char} {s h t : List Char}
    (e : splitAtFirst c s = some (h, t)) : s = h ++ c :: t ∧ c ∉ h := by
  induction s generalizing h with
  | nil => simp [splitAtFirst] at e
  | cons x xs ih =>
    simp only [splitAtFirst] at e
    by_cases hx : (x == c) = true
    · rw [if_pos hx] at e
      have e2 : (([] : List Char), xs) = (h, t) := by simpa using e
      injection e2 with ea eb
      subst ea; subst eb
      simp only [beq_iff_eq] at hx
      simp [hx]
    · rw [if_neg hx] at e
      cases hs : splitAtFirst c xs with
      | none => rw [hs] at e; simp at e
      | some pr =>
        obtain ⟨h', t'⟩ := pr
        rw [hs] at e
        have e2 : (x :: h', t') = (h, t) := by simpa using e
        injection e2 with ea eb
        subst ea; subst eb
        obtain ⟨rfl, hcf⟩ := ih hs
        simp only [beq_iff_eq] at hx
        refine ⟨by simp, ?_⟩
        simp only [List.mem_cons, not_or]
        exact ⟨fun hc => hx hc.symm, hcf⟩

theorem splitAtLast_not_contains {c : Char} {s : List Char} (h : c ∉ s) :
    splitAtLast c s = none := by
  rw [splitAtLast, splitAtFirst_not_contains (by simpa using h)]

theorem splitAtLast_append_hit {c : Char} {z : List Char}
    (h : c ∉ z) (x : List Char) :
    splitAtLast c (x ++ c :: z) = some (x, z) := by
  rw [splitAtLast]
  have hrev : (x ++ c :: z).reverse = z.reverse ++ c :: x.reverse := by simp
  rw [hrev, splitAtFirst_append_hit (by simpa using h)]
  simp

theorem splitAtLast_eq_some {c : Char} {s h t : List Char}
    (e : splitAtLast c s = some (h, t)) : s = h ++ c :: t ∧ c ∉ t := by
  rw [splitAtLast] at e
  cases hs : splitAtFirst c s.reverse with
  | none => rw [hs] at e; simp at e
  | some pr =>
    obtain ⟨t', h'⟩ := pr
    rw [hs] at e
    have e2 : (h'.reverse, t'.reverse) = (h, t) := by simpa using e
    injection e2 with ea eb
    subst ea; subst eb
    obtain ⟨hs', hcf⟩ := splitAtFirst_eq_some hs
    constructor
    · have := congrArg List.reverse hs'
      simpa using this
    · simpa using hcf

theorem splitOn_not_contains {c : Char} {s : List Char} (h : c ∉ s) :
    splitOn c s = [s] := by
  induction s with
  | nil => rfl
  | cons x xs ih =>
    simp only [List.mem_cons, not_or] at h
    simp only [splitOn]
    rw [if_neg (by simp only [beq_iff_eq]; exact fun hx => h.1 hx.symm),
      ih h.2]

theorem splitOn_ne_nil (c : Char) (s : List Char) : splitOn c s ≠ [] := by
  cases s with
  | nil => simp [splitOn]
  | cons x xs =>
    simp only [splitOn]
    split
    · simp
    · match h : splitOn c xs with
      | [] => simp
      | p :: ps => simp

theorem splitOn_append_hit {c : Char} {p : List Char}
    (h : c ∉ p) (rest : List Char) :
    splitOn c (p ++ c :: rest) = p :: splitOn c rest := by
  induction p with
  | nil => simp [splitOn]
  | cons x xs ih =>
    simp only [List.mem_cons, not_or] at h
    simp only [List.cons_append, splitOn, List.append_eq]
    rw [if_neg (by simp only [beq_iff_eq]; exact fun hx => h.1 hx.symm),
      ih h.2]

theorem joinSep_cons_cons (sep : Char) (p q : List Char) (ps : List (List Char)) :
    joinSep sep (p :: q :: ps) = p ++ sep :: joinSep sep (q :: ps) := rfl

theorem splitOn_joinSep {c : Char} :
    ∀ {ps : List (List Char)}, ps ≠ [] → (∀ p ∈ ps, c ∉ p) →
      splitOn c (joinSep c ps) = ps
  | [], h, _ => absurd rfl h
  | [p], _, hall => by
    rw [joinSep, splitOn_not_contains (hall p (by simp))]
  | p :: q :: ps, _, hall => by
    rw [joinSep_cons_cons, splitOn_append_hit (hall p (by simp))]
    rw [splitOn_joinSep (by simp) (fun r hr => hall r (by simp [hr]))]

theorem mem_joinSep {c x : Char} :
    ∀ {ps : List (List Char)}, x ∈ joinSep c ps →
      x = c ∨ ∃ p ∈ ps, x ∈ p
  | [], h => by simp [joinSep] at h
  | [p], h => by
    rw [joinSep] at h
    exact Or.inr ⟨p, by simp, h⟩
  | p :: q :: ps, h => by
    rw [joinSep_cons_cons] at h
    rcases List.mem_append.mp h with h1 | h1
    · exact Or.inr ⟨p, by simp, h1⟩
    · rcases List.mem_cons.mp h1 with h2 | h2
      · exact Or.inl h2
      · rcases mem_joinSep h2 with h3 | ⟨r, hr, hx⟩
        · exact Or.inl h3
        · exact Or.inr ⟨r, by simp [hr], hx⟩

theorem joinSep_ne_nil {c : Char} {ps : List (List Char)}
    (hne : ps ≠ []) (hhead : ∀ p ∈ ps, p ≠ []) : joinSep c ps ≠ [] := by
  match ps, hne with
  | [p], _ => rw [joinSep]; exact hhead p (by simp)
  | p :: q :: ps, _ =>
    rw [joinSep_cons_cons]
    intro hcontra
    rcases List.append_eq_nil.mp hcontra with ⟨_, h2⟩
    simp at h2

/-! ### The evaluation path never panics -/

theorem trimMatchedEnds_ok {chars : List Char}
    (h : chars.length = 1 ∨ chars.length = 2) (s : List Char) :
    ∃ r, trimMatchedEnds s chars = .ok r := by
  rw [trimMatchedEnds]
  have hc : (chars.length != 1 && chars.length != 2) = false := by
    rcases h with h | h <;> simp [h]
  rw [hc]
  simp only [Bool.false_eq_true, if_false]
  split
  · exact ⟨_, rfl⟩
  · split
    · exact ⟨_, rfl⟩
    · split <;> exact ⟨_, rfl⟩

theorem ParseIPAddr_ok (s : List Char) : ∃ v, ParseIPAddr s = .ok v := by
  rw [ParseIPAddr]
  obtain ⟨r, hr⟩ := @trimMatchedEnds_ok (str "[]") (by right; rfl)
    (match splitHostPort s with
     | some (host, _) => host
     | none => s)
  rw [hr, bind_ok]
  split
  split <;> exact ⟨_, rfl⟩

theorem goodIPAddr_ok (s : List Char) : ∃ v, goodIPAddr s = .ok v := by
  rw [goodIPAddr]
  obtain ⟨v, hv⟩ := ParseIPAddr_ok s
  rw [hv, bind_ok]
  match v with
  | none => exact ⟨_, rfl⟩
  | some a =>
    simp only
    split <;> exact ⟨_, rfl⟩

theorem parseForwardedListItem_ok (s : List Char) :
    ∃ v, parseForwardedListItem s = .ok v := by
  rw [parseForwardedListItem]
  obtain ⟨r, hr⟩ := @trimMatchedEnds_ok (str "\x22") (by left; rfl)
    (trimSpace (findForValue (splitOn ';' s)))
  rw [hr, bind_ok]
  split
  · exact ⟨_, rfl⟩
  · exact goodIPAddr_ok r

theorem parseListItem_ok (headerName s : List Char) :
    ∃ v, parseListItem headerName s = .ok v := by
  rw [parseListItem]
  split
  · exact parseForwardedListItem_ok _
  · exact goodIPAddr_ok _

/-- The value of one list item (the evaluation path never panics, so this is
total): the `Option IPAddr` that `getIPAddrList` records for the item. -/
def itemValue (headerName rawListItem : List Char) : Option IPAddr :=
  match parseListItem headerName rawListItem with
  | .ok v => v
  | .error _ => none

theorem parseListItem_eq_itemValue (headerName s : List Char) :
    parseListItem headerName s = .ok (itemValue headerName s) := by
  obtain ⟨v, hv⟩ := parseListItem_ok headerName s
  rw [itemValue, hv]

theorem mapM_parseListItem (headerName : List Char) (items : List (List Char)) :
    items.mapM (parseListItem headerName) =
      .ok (items.map (itemValue headerName)) := by
  induction items with
  | nil => rfl
  | cons i is ih =>
    rw [List.mapM_cons, parseListItem_eq_itemValue, bind_ok, ih, bind_ok]
    rfl

theorem getIPAddrListAux_eq (headerName : List Char) (hs : List (List Char)) :
    getIPAddrListAux headerName hs =
      .ok (hs.flatMap fun h => (splitOn ',' h).map (itemValue headerName)) := by
  induction hs with
  | nil => rfl
  | cons h t ih =>
    rw [getIPAddrListAux, mapM_parseListItem, bind_ok, ih, bind_ok,
      List.flatMap_cons]
    rfl

theorem getIPAddrList_eq (headers : Headers) (headerName : List Char) :
    getIPAddrList headers headerName =
      .ok ((headers headerName).flatMap
        fun h => (splitOn ',' h).map (itemValue headerName)) :=
  getIPAddrListAux_eq headerName (headers headerName)

/-! ### Scan characterizations and constructor inversion -/

/-- The skip predicate of the rightmost-trusted-range scan: a valid entry
whose address lies in one of the ranges. -/
def trustedEntry (ranges : List IPNet) : Option IPAddr → Bool
  | some a => isIPContainedInRanges a.ip ranges
  | none => false

theorem rightmostUntrustedScan_eq (ranges : List IPNet)
    (l : List (Option IPAddr)) :
    rightmostUntrustedScan ranges l =
      (match l.dropWhile (trustedEntry ranges) with
       | some a :: _ => a.string
       | _ => []) := by
  induction l with
  | nil => rfl
  | cons e rest ih =>
    cases e with
    | none => simp [rightmostUntrustedScan, List.dropWhile, trustedEntry]
    | some a =>
      by_cases hc : isIPContainedInRanges a.ip ranges
      · rw [rightmostUntrustedScan, if_pos hc, ih]
        have : (some a :: rest).dropWhile (trustedEntry ranges) =
            rest.dropWhile (trustedEntry ranges) := by
          rw [List.dropWhile_cons]
          simp [trustedEntry, hc]
        rw [this]
      · rw [rightmostUntrustedScan, if_neg hc]
        have : (some a :: rest).dropWhile (trustedEntry ranges) =
            some a :: rest := by
          rw [List.dropWhile_cons]
          simp [trustedEntry, hc]
        rw [this]

theorem NewRightmostTrustedCountStrategy_inv {hn : List Char} {n : Int}
    {strat : RightmostTrustedCountStrategy}
    (h : NewRightmostTrustedCountStrategy hn n = .ok strat) :
    0 < strat.trustedCount ∧ strat.trustedCount = n ∧
      strat.headerName = canonicalHeaderKey hn := by
  rw [NewRightmostTrustedCountStrategy] at h
  split at h
  · simp at h
  · split at h
    · simp at h
    · split at h
      · simp at h
      · rename_i hpos _
        have e2 : RightmostTrustedCountStrategy.mk (canonicalHeaderKey hn) n =
            strat := by simpa using h
        subst e2
        refine ⟨?_, rfl, rfl⟩
        show 0 < n
        omega

theorem NewRightmostTrustedRangeStrategy_inv {hn : List Char}
    {ranges : List IPNet} {strat : RightmostTrustedRangeStrategy}
    (h : NewRightmostTrustedRangeStrategy hn ranges = .ok strat) :
    strat.trustedRanges = ranges ∧ strat.headerName = canonicalHeaderKey hn := by
  rw [NewRightmostTrustedRangeStrategy] at h
  split at h
  · simp at h
  · split at h
    · simp at h
    · have e2 : RightmostTrustedRangeStrategy.mk (canonicalHeaderKey hn) ranges =
          strat := by simpa using h
      subst e2
      exact ⟨rfl, rfl⟩

/-! ### Claim C1 -/

/-- C1: for the rightmost-trusted-count strategy (list-style header, trusted
count N at least 1), with `L` the flattened candidate list, `ClientIP`
returns the entry at index `(length L - 1) - (N - 1) = length L - N` as a
canonical string when that index is in range and the entry is valid, and the
empty result when the list is shorter than N or the entry there is invalid;
the result is always a normal return (`.ok`), never an out-of-range
access. -/
theorem C1_rightmost_trusted_count (hn : List Char) (n : Int)
    (strat : RightmostTrustedCountStrategy)
    (hstrat : NewRightmostTrustedCountStrategy hn n = .ok strat)
    (headers : Headers) (remoteAddr : List Char) (L : List (Option IPAddr))
    (hL : getIPAddrList headers strat.headerName = .ok L) :
    strat.ClientIP headers remoteAddr = .ok
      (if (L.length : Int) < strat.trustedCount then []
       else
         match L[L.length - strat.trustedCount.toNat]? with
         | some (some a) => a.string
         | _ => []) := by
  obtain ⟨hpos, -, -⟩ := NewRightmostTrustedCountStrategy_inv hstrat
  rw [RightmostTrustedCountStrategy.ClientIP, hL, bind_ok]
  by_cases hlt : (L.length : Int) - 1 - (strat.trustedCount - 1) < 0
  · rw [if_pos hlt, if_pos (by omega)]
    rfl
  · rw [if_neg hlt, if_neg (by omega)]
    have hidx : ((L.length : Int) - 1 - (strat.trustedCount - 1)).toNat =
        L.length - strat.trustedCount.toNat := by omega
    have hbound : L.length - strat.trustedCount.toNat < L.length := by omega
    rw [hidx, dif_pos hbound, List.getElem?_eq_getElem hbound]
    simp only [List.get_eq_getElem]
    cases L[L.length - strat.trustedCount.toNat] <;> rfl

/-- C1 witness: three candidates, trusted count 2, selects the middle one. -/
theorem C1_witness :
    RightmostTrustedCountStrategy.ClientIP ⟨str "X-Forwarded-For", 2⟩
      (fun _ => [str "1.1.1.1, 2.2.2.2, 3.3.3.3"]) [] = .ok (str "2.2.2.2") := by
  have h := C1_rightmost_trusted_count (str "X-Forwarded-For") 2
    ⟨str "X-Forwarded-For", 2⟩ rfl
    (fun _ => [str "1.1.1.1, 2.2.2.2, 3.3.3.3"]) [] _
    (getIPAddrList_eq (fun _ => [str "1.1.1.1, 2.2.2.2, 3.3.3.3"])
      (str "X-Forwarded-For"))
  rw [h]
  rfl

/-! ### Claim C3 -/

/-- C3: for every header collection and list-style header name, the
flattened candidate list is exactly the concatenation, in instance order, of
the per-instance lists of one parse entry per comma-separated item (entries
are never dropped), so its length is the total number of items. -/
theorem C3_flatten_order (headers : Headers) (headerName : List Char)
    (hdr : headerName = xForwardedForHdr ∨ headerName = forwardedHdr)
    (L : List (Option IPAddr))
    (hL : getIPAddrList headers headerName = .ok L) :
    L = (headers headerName).flatMap
        (fun h => (splitOn ',' h).map (itemValue headerName)) ∧
      L.length = ((headers headerName).map
        (fun h => (splitOn ',' h).length)).sum := by
  rw [getIPAddrList_eq] at hL
  have hL2 : L = (headers headerName).flatMap
      (fun h => (splitOn ',' h).map (itemValue headerName)) := by
    injection hL with h'
    exact h'.symm
  refine ⟨hL2, ?_⟩
  rw [hL2, List.length_flatMap]
  congr 1
  simp [Function.comp_def]

/-- C3 witness: two instances flatten in order to three entries. -/
theorem C3_witness :
    ∃ L, getIPAddrList
        (fun n => if n == str "X-Forwarded-For"
          then [str "1.1.1.1, 2.2.2.2", str "3.3.3.3"] else [])
        (str "X-Forwarded-For") = .ok L ∧
      L = (([str "1.1.1.1, 2.2.2.2", str "3.3.3.3"]).flatMap
        (fun h => (splitOn ',' h).map (itemValue (str "X-Forwarded-For")))) ∧
      L.length = 3 := by
  obtain ⟨h1, h2⟩ := C3_flatten_order
    (fun n => if n == str "X-Forwarded-For"
      then [str "1.1.1.1, 2.2.2.2", str "3.3.3.3"] else [])
    (str "X-Forwarded-For") (Or.inl rfl) _
    (getIPAddrList_eq _ _)
  exact ⟨_, getIPAddrList_eq _ _, h1, by rw [h2]; rfl⟩

/-! ### Claim C4 -/

/-- C4: the rightmost-trusted-range strategy scans the candidate list from
the right, skipping valid entries contained in the trusted ranges; the
result is the canonical string of the first entry not skipped, and empty
when that entry is invalid or when every entry is skipped (including the
empty list). -/
theorem C4_rightmost_trusted_range (hn : List Char) (ranges : List IPNet)
    (strat : RightmostTrustedRangeStrategy)
    (hstrat : NewRightmostTrustedRangeStrategy hn ranges = .ok strat)
    (headers : Headers) (remoteAddr : List Char) (L : List (Option IPAddr))
    (hL : getIPAddrList headers strat.headerName = .ok L) :
    strat.ClientIP headers remoteAddr = .ok
      (match L.reverse.dropWhile (trustedEntry strat.trustedRanges) with
       | some a :: _ => a.string
       | _ => []) := by
  rw [RightmostTrustedRangeStrategy.ClientIP, hL, bind_ok]
  exact congrArg Except.ok (rightmostUntrustedScan_eq _ _)

/-- C4 witness: with trusted range 3.0.0.0/8, the rightmost entry 3.3.3.3 is
skipped and 2.2.2.2 is returned. -/
theorem C4_witness :
    RightmostTrustedRangeStrategy.ClientIP
      ⟨str "X-Forwarded-For", [⟨[3, 0, 0, 0], [255, 0, 0, 0]⟩]⟩
      (fun _ => [str "1.1.1.1, 2.2.2.2, 3.3.3.3"]) [] = .ok (str "2.2.2.2") := by
  have h := C4_rightmost_trusted_range (str "X-Forwarded-For")
    [⟨[3, 0, 0, 0], [255, 0, 0, 0]⟩]
    ⟨str "X-Forwarded-For", [⟨[3, 0, 0, 0], [255, 0, 0, 0]⟩]⟩ rfl
    (fun _ => [str "1.1.1.1, 2.2.2.2, 3.3.3.3"]) [] _
    (getIPAddrList_eq _ _)
  rw [h]
  rfl

/-! ### Claim C8 -/

theorem itemValue_nil (headerName : List Char) :
    itemValue headerName [] = none := by
  rw [itemValue, parseListItem]
  by_cases h : (headerName == forwardedHdr) = true
  · rw [if_pos h]
    rfl
  · rw [if_neg h]
    rfl

/-- C8: a list-style header instance whose raw value is the empty string
contributes exactly one entry, an invalid marker, to the flattened candidate
list (splitting the empty string on commas yields one empty item), so such
an instance lengthens the candidate list by one and shifts positional
indexing. -/
theorem C8_empty_instance (headerName : List Char)
    (hdr : headerName = xForwardedForHdr ∨ headerName = forwardedHdr)
    (headers : Headers) (vs ws : List (List Char))
    (hinst : headers headerName = vs ++ [[]] ++ ws)
    (A B : List (Option IPAddr))
    (hA : getIPAddrListAux headerName vs = .ok A)
    (hB : getIPAddrListAux headerName ws = .ok B) :
    getIPAddrList headers headerName = .ok (A ++ none :: B) ∧
      (A ++ none :: B).length = A.length + B.length + 1 := by
  rw [getIPAddrListAux_eq] at hA hB
  injection hA with hA'
  injection hB with hB'
  have hmid : (splitOn ',' ([] : List Char)).map (itemValue headerName) =
      [none] := by
    rw [show splitOn ',' ([] : List Char) = [[]] from rfl, List.map_cons,
      List.map_nil, itemValue_nil]
  constructor
  · rw [getIPAddrList_eq, hinst]
    congr 1
    rw [List.flatMap_append, List.flatMap_append, List.flatMap_cons,
      List.flatMap_nil, hA', hB', hmid]
    simp
  · simp
    omega

/-- C8 witness: an empty middle instance yields exactly one invalid entry
between the neighbouring instances' entries. -/
theorem C8_witness :
    getIPAddrList
        (fun n => if n == str "X-Forwarded-For"
          then [str "1.1.1.1", [], str "2.2.2.2"] else [])
        (str "X-Forwarded-For") =
      .ok [itemValue (str "X-Forwarded-For") (str "1.1.1.1"), none,
        itemValue (str "X-Forwarded-For") (str "2.2.2.2")] := by
  have h := C8_empty_instance (str "X-Forwarded-For") (Or.inl rfl)
    (fun n => if n == str "X-Forwarded-For"
      then [str "1.1.1.1", [], str "2.2.2.2"] else [])
    [str "1.1.1.1"] [str "2.2.2.2"] rfl
    [itemValue (str "X-Forwarded-For") (str "1.1.1.1")]
    [itemValue (str "X-Forwarded-For") (str "2.2.2.2")]
    (by rw [getIPAddrListAux_eq]; rfl)
    (by rw [getIPAddrListAux_eq]; rfl)
  exact h.1

/-! ### Claim C2 -/

/-- Modelled from the spec's words for claim C2 (section 4.3): split the
item on `;`; trim each parameter; split it on the FIRST `=`; the first
parameter whose key case-insensitively matches `for` supplies the value
(parameters with no `=` are skipped). -/
def specFindForValueFirstEq : List (List Char) → List Char
  | [] => []
  | fp :: rest =>
    match splitAtFirst '=' (trimSpace fp) with
    | some (k, v) =>
      if equalFold k (str "for") then v else specFindForValueFirstEq rest
    | none => specFindForValueFirstEq rest

/-- Modelled from the spec's words for claim C2: the full item parse built
on splitting each parameter at the first `=`. -/
def specForwardedForIP (fwd : List Char) : GoExc (Option IPAddr) := do
  let forPart := trimSpace (specFindForValueFirstEq (splitOn ';' fwd))
  let forPart ← trimMatchedEnds forPart (str "\x22")
  if forPart.isEmpty then return none
  else goodIPAddr forPart

/-- C2 counterexample: on `for=1.1.1.1=x;for=2.2.2.2` the code skips the
first parameter (it splits into three pieces on `=`) and returns 2.2.2.2,
while the claim's split-on-the-first-`=` algorithm takes `1.1.1.1=x` from
the first parameter and fails. -/
theorem C2_counterexample :
    parseForwardedListItem (str "for=1.1.1.1=x;for=2.2.2.2") =
        .ok (some ⟨v4InV6Pre ++ [2, 2, 2, 2], []⟩) ∧
      specForwardedForIP (str "for=1.1.1.1=x;for=2.2.2.2") = .ok none ∧
      parseForwardedListItem (str "for=1.1.1.1=x;for=2.2.2.2") ≠
        specForwardedForIP (str "for=1.1.1.1=x;for=2.2.2.2") := by
  refine ⟨rfl, rfl, fun h => ?_⟩
  rw [show parseForwardedListItem (str "for=1.1.1.1=x;for=2.2.2.2") =
      .ok (some ⟨v4InV6Pre ++ [2, 2, 2, 2], []⟩) from rfl,
    show specForwardedForIP (str "for=1.1.1.1=x;for=2.2.2.2") = .ok none
      from rfl] at h
  simp at h

/-- The C2 amended extraction: the first parameter that splits on `=` into
exactly two pieces (exactly one `=`) with key case-insensitively `for`
supplies the value; parameters with zero or several `=` are skipped. -/
def amendedForValue (fwd : List Char) : List Char :=
  match (splitOn ';' fwd).find?
      (fun fp => (splitOn '=' (trimSpace fp)).length == 2 &&
        equalFold ((splitOn '=' (trimSpace fp)).headD []) (str "for")) with
  | some fp => (splitOn '=' (trimSpace fp)).getLastD []
  | none => []

/-- The C2 amended item parse: the amended extraction, then trim
whitespace, trim one matched pair of double quotes, fail on empty, and hand
the residue to the address parser. -/
def specAmendedForwardedItem (fwd : List Char) : GoExc (Option IPAddr) := do
  let v := trimSpace (amendedForValue fwd)
  let v ← trimMatchedEnds v (str "\x22")
  if v.isEmpty then return none
  else goodIPAddr v

theorem findForValue_eq_amended (ps : List (List Char)) :
    findForValue ps =
      (match ps.find?
          (fun fp => (splitOn '=' (trimSpace fp)).length == 2 &&
            equalFold ((splitOn '=' (trimSpace fp)).headD []) (str "for")) with
       | some fp => (splitOn '=' (trimSpace fp)).getLastD []
       | none => []) := by
  induction ps with
  | nil => rfl
  | cons fp rest ih =>
    rw [findForValue]
    cases hsp : splitOn '=' (trimSpace fp) with
    | nil => exact absurd hsp (splitOn_ne_nil _ _)
    | cons k l =>
      cases l with
      | nil =>
        dsimp only
        rw [List.find?_cons_of_neg _ (by simp [hsp])]
        exact ih
      | cons v l2 =>
        cases l2 with
        | nil =>
          dsimp only
          by_cases hf : equalFold k (str "for") = true
          · rw [if_pos hf, List.find?_cons_of_pos _ (by simp [hsp, hf])]
            dsimp only
            rw [hsp]
            rfl
          · rw [if_neg hf, List.find?_cons_of_neg _ (by simp [hsp, hf])]
            exact ih
        | cons w l3 =>
          dsimp only
          rw [List.find?_cons_of_neg _ (by simp [hsp])]
          exact ih

/-- C2 amended: `parseForwardedListItem` extracts the `for=` value by
splitting the item on `;`, trimming each parameter, splitting it on `=` and
considering only parameters that split into exactly two pieces (exactly one
`=`); the first such parameter whose key case-insensitively equals `for`
supplies the value (later `for=` parameters are ignored); the value is then
whitespace-trimmed, one matched pair of double quotes is removed, an empty
residue is invalid, and otherwise the residue goes to the address parser. -/
theorem C2_amended_forwarded_item (fwd : List Char) :
    parseForwardedListItem fwd = specAmendedForwardedItem fwd := by
  rw [parseForwardedListItem, specAmendedForwardedItem, amendedForValue,
    findForValue_eq_amended]

/-! ### Printer-parser round trip: decimal bytes -/

set_option maxRecDepth 4000 in
theorem byteToDec_spec : ∀ b : Nat, b < 256 →
    validV4Field (byteToDec b) = true ∧ decVal (byteToDec b) = b ∧
      (byteToDec b).all isDigitCh = true := by decide

theorem isDigitCh_ne (c : Char) (h : isDigitCh c = true) :
    c ≠ '.' ∧ c ≠ ':' ∧ c ≠ '%' ∧ c ≠ '[' ∧ c ≠ ']' := by
  rw [isDigitCh] at h
  simp only [Bool.and_eq_true, decide_eq_true_eq] at h
  refine ⟨?_, ?_, ?_, ?_, ?_⟩ <;> (intro he; subst he; simp at h <;> omega)

theorem not_mem_byteToDec {b : Nat} (hb : b < 256) {c : Char}
    (hc : c ∈ byteToDec b) : isDigitCh c = true := by
  have := (byteToDec_spec b hb).2.2
  rw [List.all_eq_true] at this
  exact this c hc

theorem byteToDec_ne_nil {b : Nat} (hb : b < 256) : byteToDec b ≠ [] := by
  have := (byteToDec_spec b hb).1
  intro h
  rw [validV4Field, h] at this
  simp at this

/-- Characters of a dotted-quad: digits and dots only. -/
theorem mem_string4 {f : List Nat} (hb : ∀ b ∈ f, b < 256) {c : Char}
    (hc : c ∈ string4 f) : isDigitCh c = true ∨ c = '.' := by
  rcases mem_joinSep hc with h | ⟨p, hp, hcp⟩
  · exact Or.inr h
  · rcases List.mem_map.mp hp with ⟨b, hbf, rfl⟩
    exact Or.inl (not_mem_byteToDec (hb b hbf) hcp)

theorem parseV4Fields_string4 {f : List Nat} (hlen : f.length = 4)
    (hb : ∀ b ∈ f, b < 256) : parseV4Fields (string4 f) = some f := by
  match f, hlen with
  | [a, b, c, d], _ =>
    have ha := byteToDec_spec a (hb a (by simp))
    have hbb := byteToDec_spec b (hb b (by simp))
    have hcc := byteToDec_spec c (hb c (by simp))
    have hdd := byteToDec_spec d (hb d (by simp))
    have hnodot : ∀ x ∈ [a, b, c, d], '.' ∉ byteToDec x := by
      intro x hx hmem
      have hdig := not_mem_byteToDec (hb x hx) hmem
      exact (isDigitCh_ne _ hdig).1 rfl
    rw [parseV4Fields, string4]
    rw [show List.map byteToDec [a, b, c, d] =
      [byteToDec a, byteToDec b, byteToDec c, byteToDec d] from rfl]
    rw [splitOn_joinSep (by simp) ?hcf]
    case hcf =>
      intro p hp
      simp only [List.mem_cons, List.not_mem_nil, or_false] at hp
      rcases hp with rfl | rfl | rfl | rfl
      · exact hnodot a (by simp)
      · exact hnodot b (by simp)
      · exact hnodot c (by simp)
      · exact hnodot d (by simp)
    dsimp only
    rw [ha.1, hbb.1, hcc.1, hdd.1]
    simp only [Bool.and_self, if_true]
    rw [ha.2.1, hbb.2.1, hcc.2.1, hdd.2.1]

/-! ### Printer-parser round trip: hex groups -/

theorem hexDigitCh_spec : ∀ k : Nat, k < 16 →
    isHexDigitCh (hexDigitCh k) = true ∧ hexVal1 (hexDigitCh k) = k ∧
      hexDigitCh k ≠ '.' ∧ hexDigitCh k ≠ ':' ∧ hexDigitCh k ≠ '%' := by
  decide

theorem hexValG_nil : hexValG [] = 0 := rfl

theorem hexValG_cons (c : Char) (s : List Char) :
    hexValG (c :: s) = s.foldl (fun a x => a * 16 + hexVal1 x) (hexVal1 c) := by
  rw [hexValG, List.foldl_cons]
  simp

theorem foldl_hex_shift (s : List Char) (a : Nat) :
    s.foldl (fun x c => x * 16 + hexVal1 c) a =
      a * 16 ^ s.length + s.foldl (fun x c => x * 16 + hexVal1 c) 0 := by
  induction s generalizing a with
  | nil => simp
  | cons c cs ih =>
    rw [List.foldl_cons, List.foldl_cons, ih (a * 16 + hexVal1 c),
      ih (0 * 16 + hexVal1 c)]
    simp [List.length_cons, pow_succ]
    ring

theorem hexValG_explicit₂ (c d : Char) :
    hexValG [c, d] = hexVal1 c * 16 + hexVal1 d := by
  rw [hexValG]
  simp [List.foldl_cons]

theorem hexValG_explicit₃ (c d e : Char) :
    hexValG [c, d, e] = (hexVal1 c * 16 + hexVal1 d) * 16 + hexVal1 e := by
  rw [hexValG]
  simp [List.foldl_cons]

theorem hexValG_explicit₄ (c d e f : Char) :
    hexValG [c, d, e, f] =
      ((hexVal1 c * 16 + hexVal1 d) * 16 + hexVal1 e) * 16 + hexVal1 f := by
  rw [hexValG]
  simp [List.foldl_cons]

theorem hexValG_groupToHex {g : Nat} (h : g < 65536) :
    hexValG (groupToHex g) = g := by
  rw [groupToHex]
  by_cases h1 : g < 16
  · rw [if_pos h1]
    have := (hexDigitCh_spec g h1).2.1
    rw [show hexValG [hexDigitCh g] = hexVal1 (hexDigitCh g) from by
      rw [hexValG]; simp]
    exact this
  · rw [if_neg h1]
    by_cases h2 : g < 256
    · rw [if_pos h2, hexValG_explicit₂,
        (hexDigitCh_spec (g / 16) (by omega)).2.1,
        (hexDigitCh_spec (g % 16) (by omega)).2.1]
      omega
    · rw [if_neg h2]
      by_cases h3 : g < 4096
      · rw [if_pos h3, hexValG_explicit₃,
          (hexDigitCh_spec (g / 256) (by omega)).2.1,
          (hexDigitCh_spec (g / 16 % 16) (by omega)).2.1,
          (hexDigitCh_spec (g % 16) (by omega)).2.1]
        have e1 : g / 256 = g / 16 / 16 := by
          rw [Nat.div_div_eq_div_mul]
        have e2 := Nat.div_add_mod (g / 16) 16
        have e3 := Nat.div_add_mod g 16
        omega
      · rw [if_neg h3, hexValG_explicit₄,
          (hexDigitCh_spec (g / 4096) (by omega)).2.1,
          (hexDigitCh_spec (g / 256 % 16) (by omega)).2.1,
          (hexDigitCh_spec (g / 16 % 16) (by omega)).2.1,
          (hexDigitCh_spec (g % 16) (by omega)).2.1]
        have e0 : g / 4096 = g / 256 / 16 := by
          rw [Nat.div_div_eq_div_mul]
        have e1 := Nat.div_add_mod (g / 256) 16
        have e2 : g / 256 = g / 16 / 16 := by
          rw [Nat.div_div_eq_div_mul]
        have e3 := Nat.div_add_mod (g / 16) 16
        have e4 := Nat.div_add_mod g 16
        omega

theorem mem_groupToHex {g : Nat} (h : g < 65536) {c : Char}
    (hc : c ∈ groupToHex g) : isHexDigitCh c = true ∧ c ≠ '.' ∧ c ≠ ':' ∧
      c ≠ '%' := by
  rw [groupToHex] at hc
  have key : ∀ k : Nat, k < 16 → c = hexDigitCh k →
      isHexDigitCh c = true ∧ c ≠ '.' ∧ c ≠ ':' ∧ c ≠ '%' := by
    intro k hk he
    obtain ⟨h1, _, h3, h4, h5⟩ := hexDigitCh_spec k hk
    exact ⟨he ▸ h1, he ▸ h3, he ▸ h4, he ▸ h5⟩
  split at hc
  · rename_i h1
    simp only [List.mem_cons, List.not_mem_nil, or_false] at hc
    exact key g h1 hc
  · split at hc
    · rename_i h1 h2
      simp only [List.mem_cons, List.not_mem_nil, or_false] at hc
      rcases hc with rfl | rfl
      · exact key _ (by omega) rfl
      · exact key _ (by omega) rfl
    · split at hc
      · rename_i h1 h2 h3
        simp only [List.mem_cons, List.not_mem_nil, or_false] at hc
        rcases hc with rfl | rfl | rfl
        · exact key _ (by omega) rfl
        · exact key _ (by omega) rfl
        · exact key _ (by omega) rfl
      · simp only [List.mem_cons, List.not_mem_nil, or_false] at hc
        rcases hc with rfl | rfl | rfl | rfl
        · exact key _ (by omega) rfl
        · exact key _ (by omega) rfl
        · exact key _ (by omega) rfl
        · exact key _ (by omega) rfl

theorem groupToHex_ne_nil (g : Nat) : groupToHex g ≠ [] := by
  rw [groupToHex]
  split
  · simp
  · split
    · simp
    · split <;> simp

theorem validHexGroup_groupToHex {g : Nat} (h : g < 65536) :
    validHexGroup (groupToHex g) = true := by
  rw [validHexGroup]
  have hne : (groupToHex g).isEmpty = false := by
    cases hg : groupToHex g with
    | nil => exact absurd hg (groupToHex_ne_nil g)
    | cons a l => rfl
  have hlen : (groupToHex g).length ≤ 4 := by
    rw [groupToHex]
    split
    · simp
    · split
      · simp
      · split <;> simp
  have hall : (groupToHex g).all isHexDigitCh = true := by
    rw [List.all_eq_true]
    exact fun c hc => (mem_groupToHex h hc).1
  rw [hne, hall]
  simp [hlen]

/-! ### Printer-parser round trip: the ellipsis splitter -/

theorem splitFE_cons_ne {x : Char} (hx : x ≠ ':') (l : List Char) :
    splitFirstEllipsis (x :: l) =
      (splitFirstEllipsis l).map (fun q => (x :: q.1, q.2)) := by
  conv_lhs => rw [splitFirstEllipsis.eq_def]
  split
  · rename_i rest heq
    injection heq with h1 h2
    exact absurd h1 hx
  · rename_i n1 c rest hno heq
    injection heq with h1 h2
    subst h1
    subst h2
    rfl
  · rename_i heq
    simp at heq

theorem splitFE_colon_cons {l : List Char} (hl : l.head? ≠ some ':') :
    splitFirstEllipsis (':' :: l) =
      (splitFirstEllipsis l).map (fun q => (':' :: q.1, q.2)) := by
  conv_lhs => rw [splitFirstEllipsis.eq_def]
  split
  · rename_i rest heq
    injection heq with h1 h2
    exact absurd (by rw [h2]; rfl) hl
  · rename_i n1 c rest hno heq
    injection heq with h1 h2
    subst h1
    subst h2
    rfl
  · rename_i heq
    simp at heq

theorem splitFE_not_colon {p : List Char} (h : ':' ∉ p) :
    splitFirstEllipsis p = none := by
  induction p with
  | nil => rfl
  | cons x xs ih =>
    simp only [List.mem_cons, not_or] at h
    rw [splitFE_cons_ne (fun he => h.1 he.symm) xs, ih h.2]
    rfl

theorem splitFE_append_not_colon {p : List Char} (h : ':' ∉ p)
    (rest : List Char) :
    splitFirstEllipsis (p ++ rest) =
      (splitFirstEllipsis rest).map (fun q => (p ++ q.1, q.2)) := by
  induction p with
  | nil =>
    simp only [List.nil_append]
    cases splitFirstEllipsis rest with
    | none => rfl
    | some q => rfl
  | cons x xs ih =>
    simp only [List.mem_cons, not_or] at h
    rw [List.cons_append, splitFE_cons_ne (fun he => h.1 he.symm), ih h.2]
    cases splitFirstEllipsis rest with
    | none => rfl
    | some q => rfl

theorem head?_joinSep_cons {q : List Char} (hq : q ≠ []) (c : Char)
    (ps : List (List Char)) : (joinSep c (q :: ps)).head? = q.head? := by
  cases ps with
  | nil => rfl
  | cons r rs =>
    rw [joinSep_cons_cons]
    cases q with
    | nil => exact absurd rfl hq
    | cons a l => rfl

theorem head?_append_of_ne_nil {l : List Char} (h : l ≠ []) (r : List Char) :
    (l ++ r).head? = l.head? := by
  cases l with
  | nil => exact absurd rfl h
  | cons a t => rfl

theorem splitFE_joinSep_none {ps : List (List Char)}
    (hne : ∀ p ∈ ps, p ≠ []) (hcf : ∀ p ∈ ps, ':' ∉ p) :
    splitFirstEllipsis (joinSep ':' ps) = none := by
  match ps with
  | [] => rfl
  | [p] =>
    rw [joinSep]
    exact splitFE_not_colon (hcf p (by simp))
  | p :: q :: ps =>
    rw [joinSep_cons_cons,
      splitFE_append_not_colon (hcf p (by simp)),
      splitFE_colon_cons (by
        rw [head?_joinSep_cons (hne q (by simp))]
        cases hq : q with
        | nil => exact absurd hq (hne q (by simp))
        | cons a l =>
          simp only [List.head?_cons, ne_eq, Option.some.injEq]
          intro he
          exact (hcf q (by simp)) (by rw [hq, he]; simp)),
      splitFE_joinSep_none (fun r hr => hne r (by simp [hr]))
        (fun r hr => hcf r (by simp [hr]))]
    rfl

theorem splitFE_joinSep_ellipsis {ps : List (List Char)}
    (hne : ∀ p ∈ ps, p ≠ []) (hcf : ∀ p ∈ ps, ':' ∉ p) (B : List Char) :
    splitFirstEllipsis (joinSep ':' ps ++ ':' :: ':' :: B) =
      some (joinSep ':' ps, B) := by
  match ps with
  | [] => rfl
  | [p] =>
    rw [joinSep, splitFE_append_not_colon (hcf p (by simp)),
      show splitFirstEllipsis (':' :: ':' :: B) = some ([], B) from rfl]
    simp
  | p :: q :: ps =>
    rw [joinSep_cons_cons, List.append_assoc, List.cons_append,
      splitFE_append_not_colon (hcf p (by simp)),
      splitFE_colon_cons (by
        rw [head?_append_of_ne_nil (joinSep_ne_nil (by simp)
            (fun r hr => hne r (by simp [hr]))),
          head?_joinSep_cons (hne q (by simp))]
        cases hq : q with
        | nil => exact absurd hq (hne q (by simp))
        | cons a l =>
          simp only [List.head?_cons, ne_eq, Option.some.injEq]
          intro he
          exact (hcf q (by simp)) (by rw [hq, he]; simp)),
      splitFE_joinSep_ellipsis (fun r hr => hne r (by simp [hr]))
        (fun r hr => hcf r (by simp [hr])) B]
    rfl

/-! ### Printer-parser round trip: parseGroups -/

theorem flatMap_groupBytes_map {gs : List Nat} (hg : ∀ g ∈ gs, g < 65536) :
    (gs.map groupToHex).flatMap (fun x => groupBytes (hexValG x)) =
      gs.flatMap groupBytes := by
  induction gs with
  | nil => rfl
  | cons g rest ih =>
    rw [List.map_cons, List.flatMap_cons, List.flatMap_cons,
      hexValG_groupToHex (hg g (by simp)), ih (fun x hx => hg x (by simp [hx]))]

theorem length_flatMap_groupBytes (gs : List Nat) :
    (gs.flatMap groupBytes).length = 2 * gs.length := by
  induction gs with
  | nil => rfl
  | cons g rest ih =>
    rw [List.flatMap_cons, List.length_append, ih]
    rw [show (groupBytes g).length = 2 from rfl, List.length_cons]
    omega

theorem parseGroups_join {gs : List Nat} (hg : ∀ g ∈ gs, g < 65536)
    (allowV4 : Bool) :
    parseGroups (joinSep ':' (gs.map groupToHex)) allowV4 =
      some (gs.flatMap groupBytes) := by
  cases hgs : gs with
  | nil => rfl
  | cons g0 rest =>
    subst hgs
    have hne : ∀ p ∈ (g0 :: rest).map groupToHex, p ≠ [] := by
      intro p hp
      rcases List.mem_map.mp hp with ⟨g, _, rfl⟩
      exact groupToHex_ne_nil g
    have hcf : ∀ p ∈ (g0 :: rest).map groupToHex, ':' ∉ p := by
      intro p hp hc
      rcases List.mem_map.mp hp with ⟨g, hgm, rfl⟩
      exact (mem_groupToHex (hg g hgm) hc).2.2.1 rfl
    have hnonempty : joinSep ':' ((g0 :: rest).map groupToHex) ≠ [] :=
      joinSep_ne_nil (by simp) hne
    rw [parseGroups]
    dsimp only
    rw [if_neg (by simpa [List.isEmpty_iff] using hnonempty)]
    rw [splitOn_joinSep (by simp) hcf]
    obtain ⟨gs', glast, hsplit⟩ :
        ∃ gs' glast, g0 :: rest = gs' ++ [glast] := by
      rcases List.eq_nil_or_concat (g0 :: rest) with h | ⟨L, b, h⟩
      · simp at h
      · exact ⟨L, b, by simpa using h⟩
    rw [hsplit]
    rw [List.map_append, List.map_cons, List.map_nil]
    rw [show ((gs'.map groupToHex) ++ [groupToHex glast]).getLast? =
      some (groupToHex glast) from by simp]
    rw [show ((gs'.map groupToHex) ++ [groupToHex glast]).dropLast =
      gs'.map groupToHex from by simp]
    have hglast65536 : glast < 65536 := by
      apply hg
      rw [hsplit]
      simp
    have hgs' : ∀ g ∈ gs', g < 65536 := by
      intro g hgm
      apply hg
      rw [hsplit]
      simp [hgm]
    have hallinit : (gs'.map groupToHex).all validHexGroup = true := by
      rw [List.all_eq_true]
      intro p hp
      rcases List.mem_map.mp hp with ⟨g, hgm, rfl⟩
      exact validHexGroup_groupToHex (hgs' g hgm)
    rw [hallinit]
    simp only [Bool.not_true, Bool.false_eq_true, if_false]
    have hnodot : (groupToHex glast).contains '.' = false := by
      rw [contains_false]
      intro hc
      exact (mem_groupToHex hglast65536 hc).2.1 rfl
    rw [hnodot]
    simp only [Bool.false_eq_true, if_false]
    rw [validHexGroup_groupToHex hglast65536]
    simp only [if_true]
    rw [flatMap_groupBytes_map hgs', hexValG_groupToHex hglast65536]
    rw [show (gs' ++ [glast]).flatMap groupBytes =
      gs'.flatMap groupBytes ++ groupBytes glast from by
        rw [List.flatMap_append, List.flatMap_cons, List.flatMap_nil,
          List.append_nil]]

/-! ### Printer-parser round trip: the zero run -/

theorem zeroRunLen_le (gs : List Nat) (i : Nat) :
    zeroRunLen gs i ≤ gs.length - i := by
  rw [zeroRunLen]
  calc ((gs.drop i).takeWhile (fun g => g == 0)).length
      ≤ (gs.drop i).length := (List.takeWhile_prefix _).length_le
    _ = gs.length - i := List.length_drop i gs

theorem zeroRunLen_window (gs : List Nat) (i : Nat) :
    (gs.drop i).take (zeroRunLen gs i) = List.replicate (zeroRunLen gs i) 0 := by
  have hpre : (gs.drop i).takeWhile (fun g => g == 0) <+: gs.drop i :=
    List.takeWhile_prefix _
  have htake := List.prefix_iff_eq_take.mp hpre
  rw [zeroRunLen, ← htake]
  rw [List.eq_replicate_iff]
  refine ⟨rfl, fun b hb => ?_⟩
  have := List.mem_takeWhile_imp hb
  simpa using this

theorem gs_decomp {gs : List Nat} {s l : Nat} (hrun : zeroRunLen gs s = l) :
    gs = gs.take s ++ (List.replicate l 0 ++ gs.drop (s + l)) := by
  conv_lhs => rw [← List.take_append_drop s gs]
  congr 1
  conv_lhs => rw [← List.take_append_drop l (gs.drop s)]
  congr 1
  · rw [← hrun]
    exact zeroRunLen_window gs s
  · rw [List.drop_drop]

theorem bestZeroRun_run (gs : List Nat) :
    bestZeroRun gs = (0, 0) ∨
      zeroRunLen gs (bestZeroRun gs).1 = (bestZeroRun gs).2 := by
  rw [bestZeroRun]
  have key : ∀ (l : List Nat) (init : Nat × Nat),
      (init = (0, 0) ∨ zeroRunLen gs init.1 = init.2) →
      let r := l.foldl (fun best i =>
        if zeroRunLen gs i > best.2 then (i, zeroRunLen gs i) else best) init
      r = (0, 0) ∨ zeroRunLen gs r.1 = r.2 := by
    intro l
    induction l with
    | nil => intro init h; exact h
    | cons i rest ih =>
      intro init h
      rw [List.foldl_cons]
      apply ih
      by_cases hc : zeroRunLen gs i > init.2
      · rw [if_pos hc]
        exact Or.inr rfl
      · rw [if_neg hc]
        exact h
  exact key _ _ (Or.inl rfl)

theorem findZeroRun_spec {gs : List Nat} {s l : Nat}
    (h : findZeroRun gs = some (s, l)) :
    2 ≤ l ∧ zeroRunLen gs s = l ∧ s + l ≤ gs.length := by
  rw [findZeroRun] at h
  split at h
  · rename_i h2
    injection h with h3
    have hl : 2 ≤ l := by rw [h3] at h2; exact h2
    have hrun : zeroRunLen gs s = l := by
      rcases bestZeroRun_run gs with h4 | h4
      · rw [h4] at h3
        injection h3 with ha hb
        omega
      · rw [h3] at h4
        exact h4
    refine ⟨hl, hrun, ?_⟩
    have h5 := zeroRunLen_le gs s
    rw [hrun] at h5
    by_cases hs : s ≤ gs.length
    · omega
    · exfalso
      have : gs.drop s = [] := by
        rw [List.drop_eq_nil_iff]
        omega
      rw [zeroRunLen, this] at hrun
      simp at hrun
      omega
  · simp at h

/-! ### Printer-parser round trip: parseIPv6 of string6 -/

theorem mem_string6 {gs : List Nat} {c : Char} (hc : c ∈ string6 gs) :
    c = ':' ∨ ∃ g ∈ gs, c ∈ groupToHex g := by
  rw [string6] at hc
  split at hc
  · rcases mem_joinSep hc with h | ⟨p, hp, hcp⟩
    · exact Or.inl h
    · rcases List.mem_map.mp hp with ⟨g, hgm, rfl⟩
      exact Or.inr ⟨g, hgm, hcp⟩
  · rcases List.mem_append.mp hc with h1 | h1
    · rcases List.mem_append.mp h1 with h2 | h2
      · rcases mem_joinSep h2 with h | ⟨p, hp, hcp⟩
        · exact Or.inl h
        · rcases List.mem_map.mp hp with ⟨g, hgm, rfl⟩
          exact Or.inr ⟨g, List.mem_of_mem_take hgm, hcp⟩
      · simp only [List.mem_cons, List.not_mem_nil, or_false] at h2
        rcases h2 with rfl | rfl <;> exact Or.inl rfl
    · rcases mem_joinSep h1 with h | ⟨p, hp, hcp⟩
      · exact Or.inl h
      · rcases List.mem_map.mp hp with ⟨g, hgm, rfl⟩
        exact Or.inr ⟨g, List.mem_of_mem_drop hgm, hcp⟩

theorem not_mem_string6 {gs : List Nat} (hg : ∀ g ∈ gs, g < 65536) :
    '%' ∉ string6 gs ∧ '.' ∉ string6 gs := by
  constructor
  · intro hc
    rcases mem_string6 hc with h | ⟨g, hgm, hcp⟩
    · simp at h
    · exact (mem_groupToHex (hg g hgm) hcp).2.2.2 rfl
  · intro hc
    rcases mem_string6 hc with h | ⟨g, hgm, hcp⟩
    · simp at h
    · exact (mem_groupToHex (hg g hgm) hcp).2.1 rfl

theorem flatMap_groupBytes_replicate (l : Nat) :
    (List.replicate l 0).flatMap groupBytes = List.replicate (2 * l) 0 := by
  induction l with
  | zero => rfl
  | succ n ih =>
    rw [List.replicate_succ, List.flatMap_cons, ih,
      show groupBytes 0 = [0, 0] from rfl]
    rw [show 2 * (n + 1) = (2 * n) + 1 + 1 by omega]
    rw [List.replicate_succ, List.replicate_succ]
    rfl

theorem parseIPv6_string6_groups {gs : List Nat} (hlen : gs.length = 8)
    (hg : ∀ g ∈ gs, g < 65536) :
    parseIPv6 (string6 gs) = some (gs.flatMap groupBytes, []) := by
  obtain ⟨hnp, hnd⟩ := not_mem_string6 hg
  rw [parseIPv6, splitAtFirst_not_contains hnp]
  show (match splitFirstEllipsis (string6 gs) with
    | none => _ | some (l, r) => _) = _
  rw [string6]
  cases hz : findZeroRun gs with
  | none =>
    have hne : ∀ p ∈ gs.map groupToHex, p ≠ [] := by
      intro p hp
      rcases List.mem_map.mp hp with ⟨g, _, rfl⟩
      exact groupToHex_ne_nil g
    have hcf : ∀ p ∈ gs.map groupToHex, ':' ∉ p := by
      intro p hp hcc
      rcases List.mem_map.mp hp with ⟨g, hgm, rfl⟩
      exact (mem_groupToHex (hg g hgm) hcc).2.2.1 rfl
    rw [splitFE_joinSep_none hne hcf]
    show (do
      let bytes ← parseGroups (joinSep ':' (gs.map groupToHex)) true
      if bytes.length == 16 then some (bytes, ([] : List Char)) else none) = _
    rw [parseGroups_join hg true]
    show (if (gs.flatMap groupBytes).length == 16 then _ else _) = _
    rw [length_flatMap_groupBytes, hlen]
    rfl
  | some p =>
    obtain ⟨st, l⟩ := p
    dsimp only
    obtain ⟨hl2, hrun, hsl⟩ := findZeroRun_spec hz
    have htake : ∀ g ∈ gs.take st, g < 65536 :=
      fun g hgm => hg g (List.mem_of_mem_take hgm)
    have hdrop : ∀ g ∈ gs.drop (st + l), g < 65536 :=
      fun g hgm => hg g (List.mem_of_mem_drop hgm)
    have hneT : ∀ p ∈ (gs.take st).map groupToHex, p ≠ [] := by
      intro p hp
      rcases List.mem_map.mp hp with ⟨g, _, rfl⟩
      exact groupToHex_ne_nil g
    have hcfT : ∀ p ∈ (gs.take st).map groupToHex, ':' ∉ p := by
      intro p hp hcc
      rcases List.mem_map.mp hp with ⟨g, hgm, rfl⟩
      exact (mem_groupToHex (htake g hgm) hcc).2.2.1 rfl
    have hassoc : joinSep ':' ((gs.take st).map groupToHex) ++ [':', ':'] ++
        joinSep ':' ((gs.drop (st + l)).map groupToHex) =
        joinSep ':' ((gs.take st).map groupToHex) ++ ':' :: ':' ::
          joinSep ':' ((gs.drop (st + l)).map groupToHex) := by
      rw [List.append_assoc]
      rfl
    rw [hassoc, splitFE_joinSep_ellipsis hneT hcfT]
    show (do
      let lb ← parseGroups (joinSep ':' ((gs.take st).map groupToHex)) false
      let rb ← parseGroups (joinSep ':' ((gs.drop (st + l)).map groupToHex)) true
      if lb.length + rb.length ≤ 14 then
        some (lb ++ List.replicate (16 - lb.length - rb.length) 0 ++ rb,
          ([] : List Char))
      else none) = _
    rw [parseGroups_join htake false, parseGroups_join hdrop true]
    show (if ((gs.take st).flatMap groupBytes).length +
        ((gs.drop (st + l)).flatMap groupBytes).length ≤ 14 then _ else _) = _
    have hlenT : ((gs.take st).flatMap groupBytes).length = 2 * st := by
      rw [length_flatMap_groupBytes, List.length_take]
      congr 1
      omega
    have hlenD : ((gs.drop (st + l)).flatMap groupBytes).length =
        2 * (8 - st - l) := by
      rw [length_flatMap_groupBytes, List.length_drop, hlen]
      omega
    rw [hlenT, hlenD, if_pos (by omega)]
    have hrep : 16 - 2 * st - 2 * (8 - st - l) = 2 * l := by omega
    rw [hrep, List.append_assoc]
    conv_rhs => rw [gs_decomp hrun]
    rw [List.flatMap_append, List.flatMap_append,
      flatMap_groupBytes_replicate]

/-! ### Well-formedness of parse results -/

theorem validV4Field_bound {f : List Char} (h : validV4Field f = true) :
    decVal f ≤ 255 := by
  rw [validV4Field] at h
  simp only [Bool.and_eq_true, decide_eq_true_eq] at h
  exact h.2

theorem parseV4Fields_wf {s : List Char} {f : List Nat}
    (h : parseV4Fields s = some f) : f.length = 4 ∧ ∀ b ∈ f, b < 256 := by
  rw [parseV4Fields] at h
  split at h
  · rename_i a b c d
    split at h
    · rename_i hv
      simp only [Bool.and_eq_true] at hv
      injection h with h2
      subst h2
      refine ⟨rfl, fun x hx => ?_⟩
      simp only [List.mem_cons, List.not_mem_nil, or_false] at hx
      have b1 := validV4Field_bound hv.1.1.1
      have b2 := validV4Field_bound hv.1.1.2
      have b3 := validV4Field_bound hv.1.2
      have b4 := validV4Field_bound hv.2
      rcases hx with rfl | rfl | rfl | rfl <;> omega
    · simp at h
  · simp at h

theorem hexVal1_lt {c : Char} (h : isHexDigitCh c = true) : hexVal1 c < 16 := by
  rw [isHexDigitCh, isDigitCh] at h
  simp only [Bool.or_eq_true, Bool.and_eq_true, decide_eq_true_eq] at h
  rw [hexVal1, isDigitCh]
  by_cases h1 : (decide (48 ≤ c.toNat) && decide (c.toNat ≤ 57)) = true
  · rw [if_pos h1]
    simp only [Bool.and_eq_true, decide_eq_true_eq] at h1
    omega
  · rw [if_neg h1]
    simp only [Bool.and_eq_true, decide_eq_true_eq, not_and, not_le] at h1
    by_cases h2 : 97 ≤ c.toNat
    · rw [if_pos h2]
      omega
    · rw [if_neg h2]
      omega

theorem hexValG_bound {f : List Char} (hall : f.all isHexDigitCh = true) :
    hexValG f < 16 ^ f.length := by
  induction f with
  | nil => rw [hexValG]; simp
  | cons c cs ih =>
    rw [List.all_cons, Bool.and_eq_true] at hall
    have h1 : hexVal1 c < 16 := hexVal1_lt hall.1
    have h2 := ih hall.2
    rw [hexValG, List.foldl_cons, foldl_hex_shift]
    rw [show (0 : Nat) * 16 + hexVal1 c = hexVal1 c by omega]
    have hfold : (cs.foldl (fun x c => x * 16 + hexVal1 c) 0) = hexValG cs := rfl
    rw [hfold, List.length_cons, pow_succ]
    have hle : hexVal1 c * 16 ^ cs.length ≤ 15 * 16 ^ cs.length :=
      Nat.mul_le_mul_right (16 ^ cs.length) (by omega)
    have heq : 16 ^ cs.length * 16 = 15 * 16 ^ cs.length + 16 ^ cs.length := by
      ring
    omega

theorem validHexGroup_bound {f : List Char} (h : validHexGroup f = true) :
    hexValG f < 65536 := by
  rw [validHexGroup] at h
  simp only [Bool.and_eq_true, decide_eq_true_eq] at h
  have hb := hexValG_bound h.2
  have : (16 : Nat) ^ f.length ≤ 16 ^ 4 :=
    Nat.pow_le_pow_right (by omega) h.1.2
  omega

theorem groupBytes_wf {g : Nat} (h : g < 65536) :
    ∀ b ∈ groupBytes g, b < 256 := by
  intro b hb
  rw [groupBytes] at hb
  simp only [List.mem_cons, List.not_mem_nil, or_false] at hb
  rcases hb with rfl | rfl <;> omega

theorem parseGroups_wf {s : List Char} {a : Bool} {bs : List Nat}
    (h : parseGroups s a = some bs) : ∀ b ∈ bs, b < 256 := by
  rw [parseGroups] at h
  split at h
  · injection h with h2
    subst h2
    simp
  · dsimp only at h
    split at h
    · simp at h
    · rename_i lastF hlast
      split at h
      · simp at h
      · rename_i hinit
        rw [Bool.not_eq_true', Bool.not_eq_false] at hinit
        have hinitb : ∀ b ∈ (splitOn ':' s).dropLast.flatMap
            (fun g => groupBytes (hexValG g)), b < 256 := by
          intro b hb
          rcases List.mem_flatMap.mp hb with ⟨g, hgm, hbg⟩
          have hvg : validHexGroup g = true := by
            rw [List.all_eq_true] at hinit
            exact hinit g hgm
          exact groupBytes_wf (validHexGroup_bound hvg) b hbg
        split at h
        · split at h
          · rename_i hdot hv4
            cases hpv : parseV4Fields lastF with
            | none => rw [hpv] at h; simp at h
            | some v4 =>
              rw [hpv] at h
              injection h with h2
              subst h2
              intro b hb
              rcases List.mem_append.mp hb with hb1 | hb1
              · exact hinitb b hb1
              · exact (parseV4Fields_wf hpv).2 b hb1
          · simp at h
        · split at h
          · rename_i hdot hvlast
            injection h with h2
            subst h2
            intro b hb
            rcases List.mem_append.mp hb with hb1 | hb1
            · exact hinitb b hb1
            · exact groupBytes_wf (validHexGroup_bound hvlast) b hb1
          · simp at h

theorem parseIPv6Body_wf {s zone : List Char} {bs : List Nat} {z : List Char}
    (h : (match splitFirstEllipsis s with
          | none => do
            let bytes ← parseGroups s true
            if bytes.length == 16 then some (bytes, zone) else none
          | some (l, r) => do
            let lb ← parseGroups l false
            let rb ← parseGroups r true
            if lb.length + rb.length ≤ 14 then
              some (lb ++ List.replicate (16 - lb.length - rb.length) 0 ++ rb,
                zone)
            else none) = some (bs, z)) :
    bs.length = 16 ∧ ∀ b ∈ bs, b < 256 := by
  cases hfe : splitFirstEllipsis s with
  | none =>
    rw [hfe] at h
    first
      | dsimp only [Option.bind] at h
      | skip
    cases hpg : parseGroups s true with
    | none => rw [hpg] at h; simp at h
    | some bytes =>
      rw [hpg] at h
      replace h : (if (bytes.length == 16) = true then some (bytes, zone)
          else none) = some (bs, z) := h
      split at h
      · rename_i hlen
        injection h with h2
        injection h2 with h3 h4
        subst h3
        simp only [beq_iff_eq] at hlen
        exact ⟨hlen, parseGroups_wf hpg⟩
      · simp at h
  | some p =>
    obtain ⟨l, r⟩ := p
    rw [hfe] at h
    first
      | dsimp only [Option.bind] at h
      | skip
    cases hpl : parseGroups l false with
    | none => rw [hpl] at h; simp at h
    | some lb =>
      cases hpr : parseGroups r true with
      | none => rw [hpl, hpr] at h; simp at h
      | some rb =>
        rw [hpl, hpr] at h
        replace h : (if lb.length + rb.length ≤ 14 then
            some (lb ++ List.replicate (16 - lb.length - rb.length) 0 ++ rb,
              zone)
            else none) = some (bs, z) := h
        split at h
        · rename_i hle
          injection h with h2
          injection h2 with h3 h4
          subst h3
          constructor
          · simp only [List.length_append, List.length_replicate]
            omega
          · intro b hb
            rcases List.mem_append.mp hb with hb1 | hb1
            · rcases List.mem_append.mp hb1 with hb2 | hb2
              · exact parseGroups_wf hpl b hb2
              · rw [List.eq_of_mem_replicate hb2]
                omega
            · exact parseGroups_wf hpr b hb1
        · simp at h

theorem parseIPv6_wf {s : List Char} {bs : List Nat} {z : List Char}
    (h : parseIPv6 s = some (bs, z)) :
    bs.length = 16 ∧ ∀ b ∈ bs, b < 256 := by
  rw [parseIPv6] at h
  cases hsp : splitAtFirst '%' s with
  | none =>
    rw [hsp] at h
    first
      | dsimp only [Option.bind] at h
      | skip
    exact parseIPv6Body_wf h
  | some p =>
    obtain ⟨body, z'⟩ := p
    rw [hsp] at h
    first
      | dsimp only [Option.bind] at h
      | skip
    split at h
    · simp at h
    · first
      | dsimp only [Option.bind] at h
      | skip
      exact parseIPv6Body_wf h

theorem ParseIP_wf {s : List Char} {ip : List Nat} (h : ParseIP s = some ip) :
    ip.length = 16 ∧ ∀ b ∈ ip, b < 256 := by
  rw [ParseIP] at h
  cases hn : netipParseAddr s with
  | none => rw [hn] at h; simp at h
  | some t =>
    obtain ⟨b16, is4, z⟩ := t
    rw [hn] at h
    first
      | dsimp only [Option.bind] at h
      | skip
    split at h
    · rename_i hz
      injection h with h2
      subst h2
      rw [netipParseAddr] at hn
      split at hn
      · rename_i c hfind
        split at hn
        · cases hpv : parseV4Fields s with
          | none => rw [hpv] at hn; simp at hn
          | some f =>
            rw [hpv] at hn
            injection hn with hn2
            injection hn2 with hn3 hn4
            subst hn3
            obtain ⟨hl4, hb4⟩ := parseV4Fields_wf hpv
            constructor
            · rw [List.length_append, hl4]
              rfl
            · intro b hb
              rcases List.mem_append.mp hb with hb1 | hb1
              · rw [v4InV6Pre] at hb1
                simp only [List.mem_cons, List.not_mem_nil, or_false] at hb1
                rcases hb1 with rfl | rfl | rfl | rfl | rfl | rfl | rfl | rfl |
                  rfl | rfl | rfl | rfl <;> omega
              · exact hb4 b hb1
        · split at hn
          · cases hpv : parseIPv6 s with
            | none => rw [hpv] at hn; simp at hn
            | some p =>
              rw [hpv] at hn
              injection hn with hn2
              injection hn2 with hn3 hn4
              subst hn3
              exact parseIPv6_wf hpv
          · simp at hn
      · simp at hn
    · simp at h

/-! ### The full ParseIP round trip -/

theorem to4_eq_some {ip p4 : List Nat} (hlen : ip.length = 16)
    (h : to4 ip = some p4) :
    ip = v4InV6Pre ++ p4 ∧ p4.length = 4 := by
  rw [to4] at h
  rw [if_neg (by simp [hlen])] at h
  split at h
  · rename_i hc
    simp only [Bool.and_eq_true, beq_iff_eq] at hc
    injection h with h2
    subst h2
    constructor
    · rw [← hc.2]
      exact (List.take_append_drop 12 ip).symm
    · rw [List.length_drop, hlen]
  · simp at h

theorem to4_eq_none {ip : List Nat} (hlen : ip.length = 16)
    (h : to4 ip = none) : ip.take 12 ≠ v4InV6Pre := by
  rw [to4] at h
  rw [if_neg (by simp [hlen])] at h
  split at h
  · simp at h
  · rename_i hc
    simp only [Bool.and_eq_true, beq_iff_eq, not_and] at hc
    exact hc (by simp [hlen])

theorem dot_mem_string4 {f : List Nat} (hlen : f.length = 4) :
    '.' ∈ string4 f := by
  match f, hlen with
  | [a, b, c, d], _ =>
    rw [string4,
      show List.map byteToDec [a, b, c, d] =
        [byteToDec a, byteToDec b, byteToDec c, byteToDec d] from rfl,
      joinSep_cons_cons]
    simp

theorem find_special_string4 {f : List Nat} (hlen : f.length = 4)
    (hb : ∀ b ∈ f, b < 256) :
    (string4 f).find? (fun c => c == '.' || c == ':' || c == '%') =
      some '.' := by
  cases hf : (string4 f).find? (fun c => c == '.' || c == ':' || c == '%') with
  | none =>
    rw [List.find?_eq_none] at hf
    exact absurd (by simp) (hf '.' (dot_mem_string4 hlen))
  | some c =>
    have hp := List.find?_some hf
    have hm := List.mem_of_find?_eq_some hf
    rcases mem_string4 hb hm with hd | rfl
    · exfalso
      obtain ⟨h1, h2, h3, -, -⟩ := isDigitCh_ne c hd
      simp only [Bool.or_eq_true, beq_iff_eq] at hp
      rcases hp with (rfl | rfl) | rfl
      · exact h1 rfl
      · exact h2 rfl
      · exact h3 rfl
    · rfl

theorem colon_mem_string6 {gs : List Nat} (hlen : gs.length = 8) :
    ':' ∈ string6 gs := by
  rw [string6]
  cases hz : findZeroRun gs with
  | none =>
    match gs, hlen with
    | [g0, g1, g2, g3, g4, g5, g6, g7], _ =>
      rw [show List.map groupToHex [g0, g1, g2, g3, g4, g5, g6, g7] =
        groupToHex g0 :: groupToHex g1 :: List.map groupToHex
          [g2, g3, g4, g5, g6, g7] from rfl, joinSep_cons_cons]
      simp
  | some p =>
    obtain ⟨st, l⟩ := p
    dsimp only
    simp

theorem find_special_string6 {gs : List Nat} (hlen : gs.length = 8)
    (hg : ∀ g ∈ gs, g < 65536) :
    (string6 gs).find? (fun c => c == '.' || c == ':' || c == '%') =
      some ':' := by
  cases hf : (string6 gs).find? (fun c => c == '.' || c == ':' || c == '%') with
  | none =>
    rw [List.find?_eq_none] at hf
    exact absurd (by simp) (hf ':' (colon_mem_string6 hlen))
  | some c =>
    have hp := List.find?_some hf
    have hm := List.mem_of_find?_eq_some hf
    rcases mem_string6 hm with rfl | ⟨g, hgm, hcp⟩
    · rfl
    · exfalso
      obtain ⟨-, h2, h3, h4⟩ := mem_groupToHex (hg g hgm) hcp
      simp only [Bool.or_eq_true, beq_iff_eq] at hp
      rcases hp with (rfl | rfl) | rfl
      · exact h2 rfl
      · exact h3 rfl
      · exact h4 rfl

theorem groupBytes_combine {a b : Nat} (ha : a < 256) (hbb : b < 256) :
    groupBytes (a * 256 + b) = [a, b] := by
  rw [groupBytes]
  have h1 : (a * 256 + b) / 256 = a := by omega
  have h2 : (a * 256 + b) % 256 = b := by omega
  rw [h1, h2]

theorem toGroups_16 {bs : List Nat} (hlen : bs.length = 16)
    (hb : ∀ b ∈ bs, b < 256) :
    (toGroups bs).length = 8 ∧ (∀ g ∈ toGroups bs, g < 65536) ∧
      (toGroups bs).flatMap groupBytes = bs := by
  match bs, hlen with
  | [b0, b1, b2, b3, b4, b5, b6, b7, b8, b9, b10, b11, b12, b13, b14, b15],
      _ =>
    have hlt : ∀ i ∈ [b0, b1, b2, b3, b4, b5, b6, b7, b8, b9, b10, b11, b12,
        b13, b14, b15], i < 256 := hb
    simp only [List.mem_cons, List.not_mem_nil, or_false, forall_eq_or_imp,
      forall_eq] at hlt
    obtain ⟨e0, e1, e2, e3, e4, e5, e6, e7, e8, e9, e10, e11, e12, e13, e14,
      e15⟩ := hlt
    refine ⟨rfl, ?_, ?_⟩
    · intro g hg
      rw [show toGroups [b0, b1, b2, b3, b4, b5, b6, b7, b8, b9, b10, b11,
        b12, b13, b14, b15] = [b0 * 256 + b1, b2 * 256 + b3, b4 * 256 + b5,
        b6 * 256 + b7, b8 * 256 + b9, b10 * 256 + b11, b12 * 256 + b13,
        b14 * 256 + b15] from rfl] at hg
      simp only [List.mem_cons, List.not_mem_nil, or_false] at hg
      rcases hg with rfl | rfl | rfl | rfl | rfl | rfl | rfl | rfl <;> omega
    · rw [show toGroups [b0, b1, b2, b3, b4, b5, b6, b7, b8, b9, b10, b11,
        b12, b13, b14, b15] = [b0 * 256 + b1, b2 * 256 + b3, b4 * 256 + b5,
        b6 * 256 + b7, b8 * 256 + b9, b10 * 256 + b11, b12 * 256 + b13,
        b14 * 256 + b15] from rfl]
      rw [List.flatMap_cons, List.flatMap_cons, List.flatMap_cons,
        List.flatMap_cons, List.flatMap_cons, List.flatMap_cons,
        List.flatMap_cons, List.flatMap_cons, List.flatMap_nil]
      rw [groupBytes_combine e0 e1, groupBytes_combine e2 e3,
        groupBytes_combine e4 e5, groupBytes_combine e6 e7,
        groupBytes_combine e8 e9, groupBytes_combine e10 e11,
        groupBytes_combine e12 e13, groupBytes_combine e14 e15]
      rfl

theorem netipParseAddr_dot {s : List Char}
    (h : s.find? (fun c => c == '.' || c == ':' || c == '%') = some '.') :
    netipParseAddr s = (parseV4Fields s).map
      (fun f => (v4InV6Pre ++ f, true, ([] : List Char))) := by
  rw [netipParseAddr, h]
  rfl

theorem netipParseAddr_colon {s : List Char}
    (h : s.find? (fun c => c == '.' || c == ':' || c == '%') = some ':') :
    netipParseAddr s = (parseIPv6 s).map (fun p => (p.1, false, p.2)) := by
  rw [netipParseAddr, h]
  rfl

theorem ParseIP_string4 {p4 : List Nat} (hlen : p4.length = 4)
    (hb : ∀ b ∈ p4, b < 256) :
    ParseIP (string4 p4) = some (v4InV6Pre ++ p4) := by
  rw [ParseIP, netipParseAddr_dot (find_special_string4 hlen hb),
    parseV4Fields_string4 hlen hb]
  rfl

theorem ParseIP_string6_16 {bs : List Nat} (hlen : bs.length = 16)
    (hb : ∀ b ∈ bs, b < 256) :
    ParseIP (string6 (toGroups bs)) = some bs := by
  obtain ⟨hg8, hgb, hflat⟩ := toGroups_16 hlen hb
  rw [ParseIP, netipParseAddr_colon (find_special_string6 hg8 hgb),
    parseIPv6_string6_groups hg8 hgb]
  rw [hflat]
  rfl

theorem ParseIP_ipString {ip : List Nat} (hlen : ip.length = 16)
    (hb : ∀ b ∈ ip, b < 256) : ParseIP (ipString ip) = some ip := by
  rw [ipString, if_neg (by simp [List.isEmpty_iff, List.ne_nil_of_length_pos,
    show 0 < ip.length by omega])]
  cases ht : to4 ip with
  | some p4 =>
    obtain ⟨hdecomp, hp4len⟩ := to4_eq_some hlen ht
    have hp4b : ∀ b ∈ p4, b < 256 := by
      intro b hbm
      exact hb b (by rw [hdecomp]; simp [hbm])
    dsimp only
    rw [ParseIP_string4 hp4len hp4b, ← hdecomp]
  | none =>
    dsimp only
    rw [if_neg (by simp [hlen])]
    exact ParseIP_string6_16 hlen hb

/-! ### ParseIPAddr round trip -/

/-- Number of occurrences of a character. -/
def countCh (c : Char) (s : List Char) : Nat :=
  (s.filter (fun x => x == c)).length

theorem countCh_nil (c : Char) : countCh c [] = 0 := rfl

theorem countCh_append (c : Char) (s t : List Char) :
    countCh c (s ++ t) = countCh c s + countCh c t := by
  rw [countCh, countCh, countCh, List.filter_append, List.length_append]

theorem countCh_cons (c x : Char) (s : List Char) :
    countCh c (x :: s) = (if x = c then 1 else 0) + countCh c s := by
  rw [countCh, List.filter_cons]
  by_cases h : x = c
  · rw [if_pos (by simp [h]), if_pos h, List.length_cons, countCh]
    omega
  · rw [if_neg (by simp [h]), if_neg h, countCh]
    omega

theorem countCh_pos {c : Char} {s : List Char} : 0 < countCh c s ↔ c ∈ s := by
  rw [countCh, List.length_pos]
  constructor
  · intro h
    rcases List.exists_mem_of_ne_nil _ h with ⟨x, hx⟩
    have := List.of_mem_filter hx
    simp only [beq_iff_eq] at this
    exact this ▸ List.mem_of_mem_filter hx
  · intro h hc
    have : c ∈ s.filter (fun x => x == c) :=
      List.mem_filter.mpr ⟨h, by simp⟩
    rw [hc] at this
    simp at this

theorem countCh_eq_zero {c : Char} {s : List Char} :
    countCh c s = 0 ↔ c ∉ s := by
  rw [← countCh_pos]
  omega

theorem splitAtLast_some_of_mem {c : Char} {s : List Char} (h : c ∈ s) :
    ∃ p, splitAtLast c s = some p := by
  have hrev : c ∈ s.reverse := List.mem_reverse.mpr h
  have key : ∀ (t : List Char), c ∈ t → ∃ p, splitAtFirst c t = some p := by
    intro t
    induction t with
    | nil => intro h2; simp at h2
    | cons x xs ih =>
      intro h2
      by_cases hx : (x == c) = true
      · exact ⟨_, by rw [splitAtFirst, if_pos hx]⟩
      · rcases List.mem_cons.mp h2 with rfl | h3
        · simp at hx
        · obtain ⟨p, hp⟩ := ih h3
          exact ⟨_, by rw [splitAtFirst, if_neg hx, hp]; rfl⟩
  obtain ⟨⟨t', h'⟩, hp⟩ := key _ hrev
  exact ⟨_, by rw [splitAtLast, hp]⟩

theorem contains_true {c : Char} {s : List Char} :
    s.contains c = true ↔ c ∈ s := by simp

/-- `net.SplitHostPort` fails when there is no colon, or more than one colon
with an unbracketed host, or one colon plus brackets in an unbracketed
address. -/
theorem splitHostPort_none {u : List Char} (hhead : u.head? ≠ some '[')
    (hcase : countCh ':' u = 0 ∨ 2 ≤ countCh ':' u ∨
      (countCh ':' u = 1 ∧ ('[' ∈ u ∨ ']' ∈ u))) :
    splitHostPort u = none := by
  cases u with
  | nil => rfl
  | cons c0 rest =>
    rw [splitHostPort]
    by_cases hcol : ':' ∈ c0 :: rest
    · rw [if_neg (by rw [contains_true.mpr hcol]; simp)]
      have hc0 : ¬(c0 == '[') = true := by
        simp only [beq_iff_eq]
        intro he
        exact hhead (by rw [he]; rfl)
      rw [if_neg hc0]
      obtain ⟨⟨h, p⟩, hsl⟩ := splitAtLast_some_of_mem hcol
      rw [hsl]
      dsimp only
      obtain ⟨hdecomp, hnp⟩ := splitAtLast_eq_some hsl
      have hcnt : countCh ':' (c0 :: rest) = countCh ':' h + 1 := by
        rw [hdecomp, countCh_append, countCh_cons, if_pos rfl,
          countCh_eq_zero.mpr hnp]
      rcases hcase with h0 | h2 | ⟨h1, hbr⟩
      · omega
      · have hh : ':' ∈ h := countCh_pos.mp (by omega)
        rw [if_pos (contains_true.mpr hh)]
      · have hh : ':' ∉ h := countCh_eq_zero.mp (by omega)
        rw [if_neg (by rw [contains_false.mpr hh]; simp)]
        rw [if_pos (by
          rcases hbr with hb | hb <;>
            simp only [contains_true.mpr hb, Bool.or_eq_true, Bool.true_or,
              Bool.or_true])]
    · rw [if_pos (by rw [contains_false.mpr (by simpa using hcol)]; rfl)]

theorem trimMatchedEnds_brackets_noop {s : List Char}
    (h : s.head? ≠ some '[') : trimMatchedEnds s (str "[]") = .ok s := by
  rw [trimMatchedEnds]
  rw [show ((str "[]").length != 1 && (str "[]").length != 2) = false from rfl]
  simp only [Bool.false_eq_true, if_false]
  split
  · rfl
  · rw [if_pos ?hcond]
    case hcond =>
      simp only [bne_iff_ne, ne_eq]
      intro he
      exact h (by rw [he]; rfl)

theorem SplitHostZone_nozone {x : List Char} (hx : '%' ∉ x) :
    SplitHostZone x = (x, []) := by
  rw [SplitHostZone, splitAtLast_not_contains hx]

theorem SplitHostZone_append {x z : List Char} (hx : x ≠ [])
    (hz : '%' ∉ z) : SplitHostZone (x ++ '%' :: z) = (x, z) := by
  rw [SplitHostZone, splitAtLast_append_hit hz]
  dsimp only
  rw [if_neg (by simpa [List.isEmpty_iff] using hx)]

theorem SplitHostZone_snd_nopct (s : List Char) :
    '%' ∉ (SplitHostZone s).2 := by
  rw [SplitHostZone]
  cases hsl : splitAtLast '%' s with
  | none => simp
  | some p =>
    obtain ⟨h, z⟩ := p
    have := (splitAtLast_eq_some hsl).2
    dsimp only
    split
    · simp
    · exact this

theorem isHexDigitCh_ne {c : Char} (h : isHexDigitCh c = true) :
    c ≠ '[' ∧ c ≠ ']' := by
  rw [isHexDigitCh, isDigitCh] at h
  simp only [Bool.or_eq_true, Bool.and_eq_true, decide_eq_true_eq] at h
  constructor <;> (rintro rfl; simp at h <;> omega)

theorem string4_ne_nil {f : List Nat} (hlen : f.length = 4)
    (hb : ∀ b ∈ f, b < 256) : string4 f ≠ [] := by
  rw [string4]
  apply joinSep_ne_nil
  · cases f with
    | nil => simp at hlen
    | cons a t => simp
  · intro p hp
    rcases List.mem_map.mp hp with ⟨b, hbm, rfl⟩
    exact byteToDec_ne_nil (hb b hbm)

theorem string6_ne_nil {gs : List Nat} (hlen : gs.length = 8) :
    string6 gs ≠ [] := by
  intro he
  have := colon_mem_string6 hlen
  rw [he] at this
  simp at this

/-- Bundled character facts about the canonical text of a well-formed
16-byte address. -/
theorem ipString_facts {ip : List Nat} (hlen : ip.length = 16)
    (hb : ∀ b ∈ ip, b < 256) :
    ipString ip ≠ [] ∧ (ipString ip).head? ≠ some '[' ∧
      '%' ∉ ipString ip ∧ '[' ∉ ipString ip ∧ ']' ∉ ipString ip := by
  rw [ipString, if_neg (by simp [List.isEmpty_iff, List.ne_nil_of_length_pos,
    show 0 < ip.length by omega])]
  cases ht : to4 ip with
  | some p4 =>
    obtain ⟨hdecomp, hp4len⟩ := to4_eq_some hlen ht
    have hp4b : ∀ b ∈ p4, b < 256 := by
      intro b hbm
      exact hb b (by rw [hdecomp]; simp [hbm])
    dsimp only
    have hchar : ∀ c ∈ string4 p4, isDigitCh c = true ∨ c = '.' :=
      fun c hc => mem_string4 hp4b hc
    have hne := string4_ne_nil hp4len hp4b
    refine ⟨hne, ?_, ?_, ?_, ?_⟩
    · intro hhd
      cases hs4 : string4 p4 with
      | nil => exact hne hs4
      | cons a t =>
        rw [hs4] at hhd
        injection hhd with ha
        have := hchar '[' (by rw [hs4, ← ha]; simp)
        rcases this with hd | hd
        · exact (isDigitCh_ne _ hd).2.2.2.1 rfl
        · simp at hd
    · intro hm
      rcases hchar '%' hm with hd | hd
      · exact (isDigitCh_ne _ hd).2.2.1 rfl
      · simp at hd
    · intro hm
      rcases hchar '[' hm with hd | hd
      · exact (isDigitCh_ne _ hd).2.2.2.1 rfl
      · simp at hd
    · intro hm
      rcases hchar ']' hm with hd | hd
      · exact (isDigitCh_ne _ hd).2.2.2.2 rfl
      · simp at hd
  | none =>
    dsimp only
    rw [if_neg (by simp [hlen])]
    obtain ⟨hg8, hgb, -⟩ := toGroups_16 hlen hb
    have hchar : ∀ c ∈ string6 (toGroups ip), c = ':' ∨
        (isHexDigitCh c = true ∧ c ≠ '.' ∧ c ≠ ':' ∧ c ≠ '%') := by
      intro c hc
      rcases mem_string6 hc with h | ⟨g, hgm, hcp⟩
      · exact Or.inl h
      · exact Or.inr (mem_groupToHex (hgb g hgm) hcp)
    have hne := string6_ne_nil hg8
    refine ⟨hne, ?_, ?_, ?_, ?_⟩
    · intro hhd
      cases hs6 : string6 (toGroups ip) with
      | nil => exact hne hs6
      | cons a t =>
        rw [hs6] at hhd
        injection hhd with ha
        have := hchar '[' (by rw [hs6, ← ha]; simp)
        rcases this with hd | ⟨hd, -⟩
        · simp at hd
        · exact (isHexDigitCh_ne hd).1 rfl
    · intro hm
      rcases hchar '%' hm with hd | ⟨-, -, -, hd⟩
      · simp at hd
      · exact hd rfl
    · intro hm
      rcases hchar '[' hm with hd | ⟨hd, -⟩
      · simp at hd
      · exact (isHexDigitCh_ne hd).1 rfl
    · intro hm
      rcases hchar ']' hm with hd | ⟨hd, -⟩
      · simp at hd
      · exact (isHexDigitCh_ne hd).2 rfl

theorem countCh_colon_string4 {f : List Nat} (hb : ∀ b ∈ f, b < 256) :
    countCh ':' (string4 f) = 0 := by
  rw [countCh_eq_zero]
  intro hm
  rcases mem_string4 hb hm with hd | hd
  · exact (isDigitCh_ne _ hd).2.1 rfl
  · simp at hd

theorem countCh_joinSep_colonfree {ps : List (List Char)}
    (hcf : ∀ p ∈ ps, ':' ∉ p) :
    countCh ':' (joinSep ':' ps) + 1 = ps.length + (if ps = [] then 1 else 0) := by
  match ps with
  | [] => rfl
  | [p] =>
    rw [joinSep]
    rw [countCh_eq_zero.mpr (hcf p (by simp))]
    simp
  | p :: q :: rest =>
    rw [joinSep_cons_cons, countCh_append, countCh_cons, if_pos rfl,
      countCh_eq_zero.mpr (hcf p (by simp))]
    have := @countCh_joinSep_colonfree (q :: rest)
      (fun r hr => hcf r (by simp [hr]))
    rw [if_neg (by simp : ¬q :: rest = [])] at this
    rw [if_neg (by simp : ¬p :: q :: rest = [])]
    simp only [List.length_cons] at this ⊢
    omega

theorem two_colons_string6 {gs : List Nat} (hlen : gs.length = 8)
    (hg : ∀ g ∈ gs, g < 65536) : 2 ≤ countCh ':' (string6 gs) := by
  rw [string6]
  cases hz : findZeroRun gs with
  | none =>
    dsimp only
    have hcf : ∀ p ∈ gs.map groupToHex, ':' ∉ p := by
      intro p hp hcc
      rcases List.mem_map.mp hp with ⟨g, hgm, rfl⟩
      exact (mem_groupToHex (hg g hgm) hcc).2.2.1 rfl
    have := countCh_joinSep_colonfree hcf
    rw [if_neg (by simp [List.map_eq_nil_iff, List.ne_nil_of_length_pos,
      show 0 < gs.length by omega])] at this
    rw [List.length_map, hlen] at this
    omega
  | some p =>
    obtain ⟨st, l⟩ := p
    dsimp only
    rw [countCh_append, countCh_append, countCh_cons, countCh_cons,
      if_pos rfl]
    omega

theorem countCh_colon_ipString {ip : List Nat} (hlen : ip.length = 16)
    (hb : ∀ b ∈ ip, b < 256) :
    (∀ p4, to4 ip = some p4 → countCh ':' (ipString ip) = 0) ∧
      (to4 ip = none → 2 ≤ countCh ':' (ipString ip)) := by
  rw [ipString, if_neg (by simp [List.isEmpty_iff, List.ne_nil_of_length_pos,
    show 0 < ip.length by omega])]
  constructor
  · intro p4 ht
    rw [ht]
    dsimp only
    obtain ⟨hdecomp, -⟩ := to4_eq_some hlen ht
    exact countCh_colon_string4 (fun b hbm => hb b (by rw [hdecomp]; simp [hbm]))
  · intro ht
    rw [ht]
    dsimp only
    rw [if_neg (by simp [hlen])]
    obtain ⟨hg8, hgb, -⟩ := toGroups_16 hlen hb
    exact two_colons_string6 hg8 hgb

/-- The (only) inputs on which the canonical string does not re-parse to the
same value: an IPv4 or IPv4-mapped address whose zone contains exactly one
colon and no square bracket, so that `net.SplitHostPort` mistakes the zone
tail for a port. -/
def breakCond (a : IPAddr) : Prop :=
  (to4 a.ip).isSome = true ∧ countCh ':' a.zone = 1 ∧
    '[' ∉ a.zone ∧ ']' ∉ a.zone

theorem ParseIPAddr_roundtrip {a : IPAddr} (hlen : a.ip.length = 16)
    (hb : ∀ b ∈ a.ip, b < 256) (hz : '%' ∉ a.zone) (hnb : ¬breakCond a) :
    ParseIPAddr a.string = .ok (some a) := by
  obtain ⟨ip, zone⟩ := a
  simp only [breakCond] at hnb
  dsimp only at hlen hb hz
  obtain ⟨hne, hhd, hnp, hnlb, hnrb⟩ := ipString_facts hlen hb
  have hcc := countCh_colon_ipString hlen hb
  have hies : ipEmptyString ip = ipString ip := by
    rw [ipEmptyString, if_neg (by
      simp only [List.isEmpty_iff]
      exact List.ne_nil_of_length_pos (by omega))]
  rw [IPAddr.string]
  by_cases hze : zone.isEmpty = true
  · rw [if_pos hze, hies]
    have hzn : zone = [] := by simpa [List.isEmpty_iff] using hze
    have hshp : splitHostPort (ipString ip) = none := by
      apply splitHostPort_none hhd
      cases ht : to4 ip with
      | some p4 => exact Or.inl (hcc.1 p4 ht)
      | none => exact Or.inr (Or.inl (hcc.2 ht))
    rw [ParseIPAddr]
    rw [show (match splitHostPort (ipString ip) with
      | some (host, _) => host
      | none => ipString ip) = ipString ip from by rw [hshp]]
    rw [trimMatchedEnds_brackets_noop hhd, bind_ok,
      SplitHostZone_nozone hnp]
    dsimp only
    rw [ParseIP_ipString hlen hb, hzn]
    rfl
  · rw [if_neg hze, hies]
    have hzn : zone ≠ [] := by simpa [List.isEmpty_iff] using hze
    have hhdu : (ipString ip ++ '%' :: zone).head? ≠ some '[' := by
      rw [head?_append_of_ne_nil hne]
      exact hhd
    have hcu : countCh ':' (ipString ip ++ '%' :: zone) =
        countCh ':' (ipString ip) + countCh ':' zone := by
      rw [countCh_append, countCh_cons, if_neg (by decide)]
      omega
    have hshp : splitHostPort (ipString ip ++ '%' :: zone) = none := by
      apply splitHostPort_none hhdu
      cases ht : to4 ip with
      | none =>
        have := hcc.2 ht
        exact Or.inr (Or.inl (by omega))
      | some p4 =>
        have h0 := hcc.1 p4 ht
        rcases Nat.lt_trichotomy (countCh ':' zone) 1 with h1 | h1 | h1
        · exact Or.inl (by omega)
        · right
          right
          refine ⟨by omega, ?_⟩
          by_cases hlb : '[' ∈ zone
          · exact Or.inl (by simp [hlb])
          · by_cases hrb2 : ']' ∈ zone
            · exact Or.inr (by simp [hrb2])
            · exact absurd ⟨by rw [ht]; rfl, h1, hlb, hrb2⟩ hnb
        · exact Or.inr (Or.inl (by omega))
    rw [ParseIPAddr]
    rw [show (match splitHostPort (ipString ip ++ '%' :: zone) with
      | some (host, _) => host
      | none => ipString ip ++ '%' :: zone) = ipString ip ++ '%' :: zone
      from by rw [hshp]]
    rw [trimMatchedEnds_brackets_noop hhdu, bind_ok,
      SplitHostZone_append hne hz]
    dsimp only
    rw [ParseIP_ipString hlen hb]
    rfl

theorem ParseIPAddr_some {s : List Char} {a : IPAddr}
    (h : ParseIPAddr s = .ok (some a)) :
    a.ip.length = 16 ∧ (∀ b ∈ a.ip, b < 256) ∧ '%' ∉ a.zone := by
  rw [ParseIPAddr] at h
  obtain ⟨r, hr⟩ := @trimMatchedEnds_ok (str "[]") (Or.inr rfl)
    (match splitHostPort s with
     | some (host, _) => host
     | none => s)
  rw [hr, bind_ok] at h
  cases hsz : SplitHostZone r with
  | mk s3 zone =>
    rw [hsz] at h
    first
      | dsimp only at h
      | skip
    cases hpi : ParseIP s3 with
    | none =>
      rw [hpi] at h
      replace h : (Except.ok none : GoExc (Option IPAddr)) = .ok (some a) := h
      injection h with h2
      exact Option.noConfusion h2
    | some ip =>
      rw [hpi] at h
      replace h : (Except.ok (some (⟨ip, zone⟩ : IPAddr)) :
          GoExc (Option IPAddr)) = .ok (some a) := h
      injection h with h2
      injection h2 with h3
      subst h3
      refine ⟨(ParseIP_wf hpi).1, (ParseIP_wf hpi).2, ?_⟩
      have := SplitHostZone_snd_nopct r
      rw [hsz] at this
      exact this

theorem goodIPAddr_some {s : List Char} {a : IPAddr}
    (h : goodIPAddr s = .ok (some a)) :
    isUnspecified a.ip = false ∧ a.ip.length = 16 ∧ (∀ b ∈ a.ip, b < 256) ∧
      '%' ∉ a.zone ∧ ParseIPAddr s = .ok (some a) := by
  rw [goodIPAddr] at h
  obtain ⟨v, hv⟩ := ParseIPAddr_ok s
  rw [hv, bind_ok] at h
  cases v with
  | none =>
    replace h : (Except.ok none : GoExc (Option IPAddr)) = .ok (some a) := h
    injection h with h2
    exact Option.noConfusion h2
  | some a' =>
    replace h : (if isUnspecified a'.ip = true then
        (Except.ok none : GoExc (Option IPAddr))
      else .ok (some a')) = .ok (some a) := h
    split at h
    · injection h with h2
      exact Option.noConfusion h2
    · rename_i hu
      replace h : (Except.ok (some a') : GoExc (Option IPAddr)) =
        .ok (some a) := h
      injection h with h2
      injection h2 with h3
      subst h3
      obtain ⟨h1, h2, h3⟩ := ParseIPAddr_some hv
      exact ⟨Bool.not_eq_true _ ▸ hu, h1, h2, h3, hv⟩

/-! ### Claim C7 -/

/-- C7 counterexample: `[1.2.3.4%a:b]` parses to the address `1.2.3.4` with
zone `a:b`; its canonical string `1.2.3.4%a:b` re-parses with
`net.SplitHostPort` treating `b` as a port, yielding zone `a`, whose string
differs — so parse-then-stringify is not the identity on this canonical
string. -/
theorem C7_counterexample :
    ParseIPAddr (str "[1.2.3.4%a:b]") =
        .ok (some ⟨v4InV6Pre ++ [1, 2, 3, 4], str "a:b"⟩) ∧
      IPAddr.string ⟨v4InV6Pre ++ [1, 2, 3, 4], str "a:b"⟩ =
        str "1.2.3.4%a:b" ∧
      ParseIPAddr (str "1.2.3.4%a:b") =
        .ok (some ⟨v4InV6Pre ++ [1, 2, 3, 4], str "a"⟩) ∧
      IPAddr.string ⟨v4InV6Pre ++ [1, 2, 3, 4], str "a"⟩ ≠
        str "1.2.3.4%a:b" := by
  refine ⟨rfl, rfl, rfl, ?_⟩
  intro h
  exact absurd h (by decide)

/-- C7 amended: parsing a canonical address string and re-stringifying is
the identity for every valid input except an IPv4 or IPv4-mapped address
whose zone contains exactly one colon and no square bracket (there
`net.SplitHostPort` mistakes the zone tail for a port on re-parse); and
every IPv4-mapped result stringifies to the dotted-quad form, so all textual
variants of the same IPv4 address normalize to the same string. -/
theorem C7_roundtrip_amended :
    (∀ s a, ParseIPAddr s = .ok (some a) → ¬breakCond a →
      ParseIPAddr a.string = .ok (some a)) ∧
      (∀ s a p4, ParseIPAddr s = .ok (some a) → to4 a.ip = some p4 →
        a.string = (if a.zone.isEmpty then string4 p4
          else string4 p4 ++ '%' :: a.zone)) ∧
      ParseIPAddr (str "::ffff:188.0.2.128") =
        .ok (some ⟨v4InV6Pre ++ [188, 0, 2, 128], []⟩) ∧
      ParseIPAddr (str "::ffff:bc00:280") =
        .ok (some ⟨v4InV6Pre ++ [188, 0, 2, 128], []⟩) ∧
      ParseIPAddr (str "188.0.2.128") =
        .ok (some ⟨v4InV6Pre ++ [188, 0, 2, 128], []⟩) ∧
      IPAddr.string ⟨v4InV6Pre ++ [188, 0, 2, 128], []⟩ =
        str "188.0.2.128" := by
  refine ⟨?_, ?_, rfl, rfl, rfl, rfl⟩
  · intro s a hparse hnb
    obtain ⟨h1, h2, h3⟩ := ParseIPAddr_some hparse
    exact ParseIPAddr_roundtrip h1 h2 h3 hnb
  · intro s a p4 hparse ht
    obtain ⟨h1, h2, h3⟩ := ParseIPAddr_some hparse
    have hne : a.ip ≠ [] := List.ne_nil_of_length_pos (by omega)
    have hipstr : ipEmptyString a.ip = string4 p4 := by
      rw [ipEmptyString, if_neg (by simpa [List.isEmpty_iff] using hne),
        ipString, if_neg (by simpa [List.isEmpty_iff] using hne), ht]
    rw [IPAddr.string, hipstr]

/-- C7 witness: the round trip at the concrete canonical string 1.2.3.4. -/
theorem C7_witness :
    ParseIPAddr (IPAddr.string ⟨v4InV6Pre ++ [1, 2, 3, 4], []⟩) =
      .ok (some ⟨v4InV6Pre ++ [1, 2, 3, 4], []⟩) :=
  C7_roundtrip_amended.1 (str "1.2.3.4") ⟨v4InV6Pre ++ [1, 2, 3, 4], []⟩ rfl
    (fun hbc => absurd hbc.2.1 (by decide))

/-! ### Claim C5: no unspecified address survives -/

/-- The canonical string of a well-formed non-unspecified address is neither
`0.0.0.0` nor `::` (by the printer–parser round trip). -/
theorem ipString_ne_unspec {x : List Nat} (hlen : x.length = 16)
    (hb : ∀ b ∈ x, b < 256) (hx : isUnspecified x = false) :
    ipString x ≠ str "0.0.0.0" ∧ ipString x ≠ str "::" := by
  refine ⟨?_, ?_⟩ <;> intro he <;> have h1 := ParseIP_ipString hlen hb <;>
    rw [he] at h1
  · have h2 : ParseIP (str "0.0.0.0") = some (v4InV6Pre ++ [0, 0, 0, 0]) := rfl
    rw [h2] at h1
    injection h1 with h3
    rw [← h3] at hx
    exact absurd hx (by decide)
  · have h2 : ParseIP (str "::") = some (List.replicate 16 0) := rfl
    rw [h2] at h1
    injection h1 with h3
    rw [← h3] at hx
    exact absurd hx (by decide)

/-- A well-formed unspecified byte string is one of the three zero forms. -/
theorem unspec_wf_elim {b : List Nat} (hl : b.length = 4 ∨ b.length = 16)
    (hu : isUnspecified b = true) :
    b = [0, 0, 0, 0] ∨ b = v4InV6Pre ++ [0, 0, 0, 0] ∨
      b = List.replicate 16 0 := by
  rw [isUnspecified] at hu
  simp only [Bool.or_eq_true] at hu
  rcases hl with hl | hl
  · left
    rcases hu with h | h
    · simp [ipEqual, hl] at h
      exact h
    · exfalso
      simp [ipEqual, hl] at h
      exact absurd h.1 (by decide)
  · rcases hu with h | h
    · right; left
      simp [ipEqual, hl] at h
      obtain ⟨h1, h2⟩ := h
      rw [← List.take_append_drop 12 b, h1, h2]
    · right; right
      simp [ipEqual, hl] at h
      exact h

/-- An unspecified address prints as `0.0.0.0` or as `::`. -/
theorem unspec_ipEmptyString {b : List Nat}
    (hl : b.length = 4 ∨ b.length = 16) (hu : isUnspecified b = true) :
    ipEmptyString b = str "0.0.0.0" ∨ ipEmptyString b = str "::" := by
  rcases unspec_wf_elim hl hu with rfl | rfl | rfl
  · exact Or.inl rfl
  · exact Or.inl rfl
  · exact Or.inr rfl

/-- The string of an unspecified address is never empty. -/
theorem unspec_string_ne_nil {b : IPAddr}
    (hl : b.ip.length = 4 ∨ b.ip.length = 16)
    (hu : isUnspecified b.ip = true) : b.string ≠ [] := by
  rcases unspec_ipEmptyString hl hu with h | h <;>
    rw [IPAddr.string, h] <;> split
  · exact by decide
  · simp
  · exact by decide
  · simp

/-- A parse-produced, non-unspecified address never shares its string with
any well-formed unspecified address (zones included: the parse-produced zone
holds no `%`, so the `%`-split of the two strings would have to agree). -/
theorem string_ne_unspec {a b : IPAddr} (ha16 : a.ip.length = 16)
    (hab : ∀ x ∈ a.ip, x < 256) (hau : isUnspecified a.ip = false)
    (haz : '%' ∉ a.zone) (hbl : b.ip.length = 4 ∨ b.ip.length = 16)
    (hbu : isUnspecified b.ip = true) : a.string ≠ b.string := by
  intro he
  have hnea : a.ip ≠ [] := List.ne_nil_of_length_pos (by omega)
  have hiea : ipEmptyString a.ip = ipString a.ip := by
    rw [ipEmptyString, if_neg (by simpa [List.isEmpty_iff] using hnea)]
  have hbstr := unspec_ipEmptyString hbl hbu
  have hanp : '%' ∉ ipString a.ip := (ipString_facts ha16 hab).2.2.1
  have hbnp : '%' ∉ ipEmptyString b.ip := by
    rcases hbstr with h | h <;> rw [h] <;> decide
  have hne0 : ipString a.ip ≠ str "0.0.0.0" :=
    (ipString_ne_unspec ha16 hab hau).1
  have hnec : ipString a.ip ≠ str "::" :=
    (ipString_ne_unspec ha16 hab hau).2
  rw [IPAddr.string, IPAddr.string, hiea] at he
  by_cases hza : a.zone.isEmpty = true <;> by_cases hzb : b.zone.isEmpty = true
  · rw [if_pos hza, if_pos hzb] at he
    rcases hbstr with h | h <;> rw [h] at he
    · exact hne0 he
    · exact hnec he
  · rw [if_pos hza, if_neg hzb] at he
    have : '%' ∈ ipString a.ip := by rw [he]; simp
    exact hanp this
  · rw [if_neg hza, if_pos hzb] at he
    have : '%' ∈ ipEmptyString b.ip := by rw [← he]; simp
    exact hbnp this
  · rw [if_neg hza, if_neg hzb] at he
    have h1 : splitAtFirst '%' (ipString a.ip ++ '%' :: a.zone) =
        some (ipString a.ip, a.zone) := splitAtFirst_append_hit hanp a.zone
    have h2 : splitAtFirst '%' (ipEmptyString b.ip ++ '%' :: b.zone) =
        some (ipEmptyString b.ip, b.zone) := splitAtFirst_append_hit hbnp b.zone
    rw [he, h2] at h1
    injection h1 with h3
    have h4 : ipEmptyString b.ip = ipString a.ip := congrArg Prod.fst h3
    rcases hbstr with h | h <;> rw [h] at h4
    · exact hne0 h4.symm
    · exact hnec h4.symm

/-- A `some` result of `parseForwardedListItem` comes from a successful
`goodIPAddr` call. -/
theorem parseForwardedListItem_some {fwd : List Char} {a : IPAddr}
    (h : parseForwardedListItem fwd = .ok (some a)) :
    ∃ s, goodIPAddr s = .ok (some a) := by
  rw [parseForwardedListItem] at h
  obtain ⟨r, hr⟩ := @trimMatchedEnds_ok (str "\x22") (Or.inl rfl)
    (trimSpace (findForValue (splitOn ';' fwd)))
  rw [hr, bind_ok] at h
  split at h
  · replace h : (Except.ok none : GoExc (Option IPAddr)) = .ok (some a) := h
    injection h with h2
    exact Option.noConfusion h2
  · exact ⟨r, h⟩

/-- A valid candidate-list entry comes from a successful `goodIPAddr`
call. -/
theorem itemValue_some {headerName item : List Char} {a : IPAddr}
    (h : itemValue headerName item = some a) :
    ∃ s, goodIPAddr s = .ok (some a) := by
  have hv := parseListItem_eq_itemValue headerName item
  rw [h] at hv
  replace hv : (if headerName == forwardedHdr then
      parseForwardedListItem (trimSpace item)
    else goodIPAddr (trimSpace item)) = .ok (some a) := hv
  split at hv
  · exact parseForwardedListItem_some hv
  · exact ⟨trimSpace item, hv⟩

/-- Every valid entry of the flattened candidate list comes from a
successful `goodIPAddr` call. -/
theorem mem_getIPAddrList_good {headers : Headers} {headerName : List Char}
    {a : IPAddr}
    (hm : some a ∈ (headers headerName).flatMap
      fun h => (splitOn ',' h).map (itemValue headerName)) :
    ∃ s, goodIPAddr s = .ok (some a) := by
  rcases List.mem_flatMap.mp hm with ⟨h, -, hm2⟩
  rcases List.mem_map.mp hm2 with ⟨item, -, hiv⟩
  exact itemValue_some hiv

/-- Every scan result is empty or the string of a listed valid entry. -/
theorem leftmostScan_shape (l : List (Option IPAddr)) :
    leftmostScan l = [] ∨ ∃ a, some a ∈ l ∧ leftmostScan l = a.string := by
  induction l with
  | nil => exact Or.inl rfl
  | cons e rest ih =>
    cases e with
    | none =>
      rcases ih with h | ⟨a, hm, hs⟩
      · exact Or.inl (by rw [leftmostScan, h])
      · exact Or.inr ⟨a, List.mem_cons_of_mem _ hm, by rw [leftmostScan, hs]⟩
    | some a =>
      by_cases hp : isPrivateOrLocal a.ip = true
      · have hc : ¬((!isPrivateOrLocal a.ip) = true) := by simp [hp]
        rcases ih with h | ⟨a', hm, hs⟩
        · exact Or.inl (by rw [leftmostScan, if_neg hc, h])
        · exact Or.inr ⟨a', List.mem_cons_of_mem _ hm,
            by rw [leftmostScan, if_neg hc, hs]⟩
      · have hc : (!isPrivateOrLocal a.ip) = true := by simpa using hp
        exact Or.inr ⟨a, List.mem_cons_self _ _,
          by rw [leftmostScan, if_pos hc]⟩

/-- Every rightmost-trusted-range scan result is empty or the string of a
listed valid entry. -/
theorem rightmostUntrustedScan_shape (ranges : List IPNet)
    (l : List (Option IPAddr)) :
    rightmostUntrustedScan ranges l = [] ∨
      ∃ a, some a ∈ l ∧ rightmostUntrustedScan ranges l = a.string := by
  induction l with
  | nil => exact Or.inl rfl
  | cons e rest ih =>
    cases e with
    | none => exact Or.inl (by rw [rightmostUntrustedScan])
    | some a =>
      by_cases hc : isIPContainedInRanges a.ip ranges = true
      · rcases ih with h | ⟨a', hm, hs⟩
        · exact Or.inl (by rw [rightmostUntrustedScan, if_pos hc, h])
        · exact Or.inr ⟨a', List.mem_cons_of_mem _ hm,
            by rw [rightmostUntrustedScan, if_pos hc, hs]⟩
      · exact Or.inr ⟨a, List.mem_cons_self _ _,
          by rw [rightmostUntrustedScan, if_neg hc]⟩

/-- Any `RemoteAddrStrategy` result is empty or the string of an address
accepted by `goodIPAddr`. -/
theorem RemoteAddrClientIP_shape {headers : Headers} {remoteAddr r : List Char}
    (h : RemoteAddrClientIP headers remoteAddr = .ok r) :
    r = [] ∨ ∃ s a, goodIPAddr s = .ok (some a) ∧ r = a.string := by
  rw [RemoteAddrClientIP] at h
  obtain ⟨v, hv⟩ := goodIPAddr_ok remoteAddr
  rw [hv, bind_ok] at h
  cases v with
  | none =>
    replace h : (Except.ok [] : GoExc (List Char)) = .ok r := h
    injection h with h2
    exact Or.inl h2.symm
  | some a =>
    replace h : (Except.ok a.string : GoExc (List Char)) = .ok r := h
    injection h with h2
    exact Or.inr ⟨remoteAddr, a, hv, h2.symm⟩

/-- Any `SingleIPHeaderStrategy` result is empty or the string of an address
accepted by `goodIPAddr`. -/
theorem SingleIPHeaderClientIP_shape {strat : SingleIPHeaderStrategy}
    {headers : Headers} {remoteAddr r : List Char}
    (h : SingleIPHeaderStrategy.ClientIP strat headers remoteAddr = .ok r) :
    r = [] ∨ ∃ s a, goodIPAddr s = .ok (some a) ∧ r = a.string := by
  rw [SingleIPHeaderStrategy.ClientIP] at h
  first
    | dsimp only at h
    | skip
  by_cases he : (lastHeader headers strat.headerName).isEmpty = true
  · rw [if_pos he] at h
    replace h : (Except.ok [] : GoExc (List Char)) = .ok r := h
    injection h with h2
    exact Or.inl h2.symm
  · rw [if_neg he] at h
    obtain ⟨v, hv⟩ := goodIPAddr_ok (lastHeader headers strat.headerName)
    rw [hv, bind_ok] at h
    cases v with
    | none =>
      replace h : (Except.ok [] : GoExc (List Char)) = .ok r := h
      injection h with h2
      exact Or.inl h2.symm
    | some a =>
      replace h : (Except.ok a.string : GoExc (List Char)) = .ok r := h
      injection h with h2
      exact Or.inr ⟨lastHeader headers strat.headerName, a, hv, h2.symm⟩

/-- Any `LeftmostNonPrivateStrategy` result is empty or the string of an
address accepted by `goodIPAddr`. -/
theorem LeftmostClientIP_shape {strat : LeftmostNonPrivateStrategy}
    {headers : Headers} {remoteAddr r : List Char}
    (h : LeftmostNonPrivateStrategy.ClientIP strat headers remoteAddr = .ok r) :
    r = [] ∨ ∃ s a, goodIPAddr s = .ok (some a) ∧ r = a.string := by
  rw [LeftmostNonPrivateStrategy.ClientIP, getIPAddrList_eq, bind_ok] at h
  replace h : (Except.ok (leftmostScan ((headers strat.headerName).flatMap
      fun hh => (splitOn ',' hh).map (itemValue strat.headerName))) :
        GoExc (List Char)) = .ok r := h
  injection h with h2
  subst h2
  rcases leftmostScan_shape ((headers strat.headerName).flatMap
      fun hh => (splitOn ',' hh).map (itemValue strat.headerName)) with
    hs | ⟨a, hm, hs⟩
  · exact Or.inl hs
  · obtain ⟨s, hg⟩ := mem_getIPAddrList_good hm
    exact Or.inr ⟨s, a, hg, hs⟩

/-- Any `RightmostNonPrivateStrategy` result is empty or the string of an
address accepted by `goodIPAddr`. -/
theorem RightmostClientIP_shape {strat : RightmostNonPrivateStrategy}
    {headers : Headers} {remoteAddr r : List Char}
    (h : RightmostNonPrivateStrategy.ClientIP strat headers remoteAddr = .ok r) :
    r = [] ∨ ∃ s a, goodIPAddr s = .ok (some a) ∧ r = a.string := by
  rw [RightmostNonPrivateStrategy.ClientIP, getIPAddrList_eq, bind_ok] at h
  replace h : (Except.ok (leftmostScan ((headers strat.headerName).flatMap
      fun hh => (splitOn ',' hh).map (itemValue strat.headerName)).reverse) :
        GoExc (List Char)) = .ok r := h
  injection h with h2
  subst h2
  rcases leftmostScan_shape ((headers strat.headerName).flatMap
      fun hh => (splitOn ',' hh).map (itemValue strat.headerName)).reverse with
    hs | ⟨a, hm, hs⟩
  · exact Or.inl hs
  · obtain ⟨s, hg⟩ := mem_getIPAddrList_good (List.mem_reverse.mp hm)
    exact Or.inr ⟨s, a, hg, hs⟩

/-- Any normal `RightmostTrustedCountStrategy` result is empty or the string
of an address accepted by `goodIPAddr`. -/
theorem RightmostCountClientIP_shape {strat : RightmostTrustedCountStrategy}
    {headers : Headers} {remoteAddr r : List Char}
    (h : RightmostTrustedCountStrategy.ClientIP strat headers remoteAddr = .ok r) :
    r = [] ∨ ∃ s a, goodIPAddr s = .ok (some a) ∧ r = a.string := by
  rw [RightmostTrustedCountStrategy.ClientIP, getIPAddrList_eq, bind_ok] at h
  first
    | dsimp only at h
    | skip
  split at h
  · replace h : (Except.ok [] : GoExc (List Char)) = .ok r := h
    injection h with h2
    exact Or.inl h2.symm
  · split at h
    · rename_i hlt
      split at h
      · replace h : (Except.ok [] : GoExc (List Char)) = .ok r := h
        injection h with h2
        exact Or.inl h2.symm
      · rename_i a hget
        replace h : (Except.ok a.string : GoExc (List Char)) = .ok r := h
        injection h with h2
        have hmem : some a ∈ (headers strat.headerName).flatMap
            fun hh => (splitOn ',' hh).map (itemValue strat.headerName) := by
          rw [← hget]
          exact List.get_mem _ _ _
        obtain ⟨s, hg⟩ := mem_getIPAddrList_good hmem
        exact Or.inr ⟨s, a, hg, h2.symm⟩
    · exact Except.noConfusion h

/-- Any `RightmostTrustedRangeStrategy` result is empty or the string of an
address accepted by `goodIPAddr`. -/
theorem RightmostRangeClientIP_shape {strat : RightmostTrustedRangeStrategy}
    {headers : Headers} {remoteAddr r : List Char}
    (h : RightmostTrustedRangeStrategy.ClientIP strat headers remoteAddr = .ok r) :
    r = [] ∨ ∃ s a, goodIPAddr s = .ok (some a) ∧ r = a.string := by
  rw [RightmostTrustedRangeStrategy.ClientIP, getIPAddrList_eq, bind_ok] at h
  replace h : (Except.ok (rightmostUntrustedScan strat.trustedRanges
      ((headers strat.headerName).flatMap
        fun hh => (splitOn ',' hh).map (itemValue strat.headerName)).reverse) :
          GoExc (List Char)) = .ok r := h
  injection h with h2
  subst h2
  rcases rightmostUntrustedScan_shape strat.trustedRanges
      ((headers strat.headerName).flatMap
        fun hh => (splitOn ',' hh).map (itemValue strat.headerName)).reverse with
    hs | ⟨a, hm, hs⟩
  · exact Or.inl hs
  · obtain ⟨s, hg⟩ := mem_getIPAddrList_good (List.mem_reverse.mp hm)
    exact Or.inr ⟨s, a, hg, hs⟩

/-- A result of the empty-or-good shape never equals the string of a
well-formed unspecified address. -/
theorem shape_ne_unspec {r : List Char} {b : IPAddr}
    (hr : r = [] ∨ ∃ s a, goodIPAddr s = .ok (some a) ∧ r = a.string)
    (hbl : b.ip.length = 4 ∨ b.ip.length = 16)
    (hbu : isUnspecified b.ip = true) : r ≠ b.string := by
  rcases hr with rfl | ⟨s, a, hg, rfl⟩
  · exact fun he => unspec_string_ne_nil hbl hbu he.symm
  · obtain ⟨hau, h16, hab, haz, -⟩ := goodIPAddr_some hg
    exact string_ne_unspec h16 hab hau haz hbl hbu

/-- C5: no parse result is ever an unspecified address.  `goodIPAddr` never
accepts an unspecified address; the unspecified inputs `0.0.0.0`, `::`
(including IPv4-mapped and expanded textual variants) and a malformed token
all yield the invalid result; and consequently no strategy ever returns the
string form of any well-formed unspecified address. -/
theorem C5_no_unspecified :
    (∀ s a, goodIPAddr s = .ok (some a) → isUnspecified a.ip = false) ∧
    goodIPAddr (str "0.0.0.0") = .ok none ∧
    goodIPAddr (str "::") = .ok none ∧
    goodIPAddr (str "::ffff:0.0.0.0") = .ok none ∧
    goodIPAddr (str "0:0:0:0:0:0:0:0") = .ok none ∧
    goodIPAddr (str "not-an-ip") = .ok none ∧
    (∀ b : IPAddr, (b.ip.length = 4 ∨ b.ip.length = 16) →
      isUnspecified b.ip = true →
      (∀ headers remoteAddr r,
        RemoteAddrClientIP headers remoteAddr = .ok r → r ≠ b.string) ∧
      (∀ strat headers remoteAddr r,
        SingleIPHeaderStrategy.ClientIP strat headers remoteAddr = .ok r →
          r ≠ b.string) ∧
      (∀ strat headers remoteAddr r,
        LeftmostNonPrivateStrategy.ClientIP strat headers remoteAddr = .ok r →
          r ≠ b.string) ∧
      (∀ strat headers remoteAddr r,
        RightmostNonPrivateStrategy.ClientIP strat headers remoteAddr = .ok r →
          r ≠ b.string) ∧
      (∀ strat headers remoteAddr r,
        RightmostTrustedCountStrategy.ClientIP strat headers remoteAddr = .ok r →
          r ≠ b.string) ∧
      (∀ strat headers remoteAddr r,
        RightmostTrustedRangeStrategy.ClientIP strat headers remoteAddr = .ok r →
          r ≠ b.string)) := by
  refine ⟨?_, rfl, rfl, rfl, rfl, rfl, ?_⟩
  · intro s a h
    exact (goodIPAddr_some h).1
  · intro b hbl hbu
    refine ⟨?_, ?_, ?_, ?_, ?_, ?_⟩
    · intro headers remoteAddr r h
      exact shape_ne_unspec (RemoteAddrClientIP_shape h) hbl hbu
    · intro strat headers remoteAddr r h
      exact shape_ne_unspec (SingleIPHeaderClientIP_shape h) hbl hbu
    · intro strat headers remoteAddr r h
      exact shape_ne_unspec (LeftmostClientIP_shape h) hbl hbu
    · intro strat headers remoteAddr r h
      exact shape_ne_unspec (RightmostClientIP_shape h) hbl hbu
    · intro strat headers remoteAddr r h
      exact shape_ne_unspec (RightmostCountClientIP_shape h) hbl hbu
    · intro strat headers remoteAddr r h
      exact shape_ne_unspec (RightmostRangeClientIP_shape h) hbl hbu

/-- C5 witness: at a concrete valid address the accepted result is not
unspecified, and the concrete `RemoteAddrStrategy` result `1.2.3.4` differs
from the string of the unspecified IPv4 address. -/
theorem C5_witness :
    isUnspecified (v4InV6Pre ++ [1, 2, 3, 4]) = false ∧
      str "1.2.3.4" ≠ IPAddr.string ⟨[0, 0, 0, 0], []⟩ := by
  constructor
  · exact C5_no_unspecified.1 (str "1.2.3.4") ⟨v4InV6Pre ++ [1, 2, 3, 4], []⟩ rfl
  · exact (C5_no_unspecified.2.2.2.2.2.2 ⟨[0, 0, 0, 0], []⟩ (Or.inl rfl)
      (by decide)).1 (fun _ => []) (str "1.2.3.4") (str "1.2.3.4") rfl

/-! ### Claim C6: construction errors and panic-free evaluation -/

theorem NewSingleIPHeaderStrategy_ok_iff (hn : List Char) :
    (∃ st, NewSingleIPHeaderStrategy hn = .ok st) ↔
      hn.isEmpty = false ∧ canonicalHeaderKey hn ≠ xForwardedForHdr ∧
        canonicalHeaderKey hn ≠ forwardedHdr := by
  rw [NewSingleIPHeaderStrategy]
  by_cases h1 : hn.isEmpty = true
  · rw [if_pos h1]
    simp [h1]
  · rw [if_neg h1]
    by_cases h2 : (canonicalHeaderKey hn == xForwardedForHdr ||
        canonicalHeaderKey hn == forwardedHdr) = true
    · rw [if_pos h2]
      simp only [Bool.or_eq_true, beq_iff_eq] at h2
      constructor
      · rintro ⟨st, hst⟩
        exact Except.noConfusion hst
      · rintro ⟨-, hxf, hfw⟩
        rcases h2 with h | h
        · exact absurd h hxf
        · exact absurd h hfw
    · rw [if_neg h2]
      simp only [Bool.or_eq_true, beq_iff_eq, not_or] at h2
      exact ⟨fun _ => ⟨by simpa using h1, h2.1, h2.2⟩, fun _ => ⟨_, rfl⟩⟩

theorem NewLeftmostNonPrivateStrategy_ok_iff (hn : List Char) :
    (∃ st, NewLeftmostNonPrivateStrategy hn = .ok st) ↔
      hn.isEmpty = false ∧ (canonicalHeaderKey hn = xForwardedForHdr ∨
        canonicalHeaderKey hn = forwardedHdr) := by
  rw [NewLeftmostNonPrivateStrategy]
  by_cases h1 : hn.isEmpty = true
  · rw [if_pos h1]
    simp [h1]
  · rw [if_neg h1]
    by_cases h2 : (canonicalHeaderKey hn != xForwardedForHdr &&
        canonicalHeaderKey hn != forwardedHdr) = true
    · rw [if_pos h2]
      simp only [Bool.and_eq_true, bne_iff_ne] at h2
      constructor
      · rintro ⟨st, hst⟩
        exact Except.noConfusion hst
      · rintro ⟨-, h | h⟩
        · exact absurd h h2.1
        · exact absurd h h2.2
    · rw [if_neg h2]
      simp only [Bool.and_eq_true, bne_iff_ne, not_and_or, not_not] at h2
      exact ⟨fun _ => ⟨by simpa using h1, h2⟩, fun _ => ⟨_, rfl⟩⟩

theorem NewRightmostNonPrivateStrategy_ok_iff (hn : List Char) :
    (∃ st, NewRightmostNonPrivateStrategy hn = .ok st) ↔
      hn.isEmpty = false ∧ (canonicalHeaderKey hn = xForwardedForHdr ∨
        canonicalHeaderKey hn = forwardedHdr) := by
  rw [NewRightmostNonPrivateStrategy]
  by_cases h1 : hn.isEmpty = true
  · rw [if_pos h1]
    simp [h1]
  · rw [if_neg h1]
    by_cases h2 : (canonicalHeaderKey hn != xForwardedForHdr &&
        canonicalHeaderKey hn != forwardedHdr) = true
    · rw [if_pos h2]
      simp only [Bool.and_eq_true, bne_iff_ne] at h2
      constructor
      · rintro ⟨st, hst⟩
        exact Except.noConfusion hst
      · rintro ⟨-, h | h⟩
        · exact absurd h h2.1
        · exact absurd h h2.2
    · rw [if_neg h2]
      simp only [Bool.and_eq_true, bne_iff_ne, not_and_or, not_not] at h2
      exact ⟨fun _ => ⟨by simpa using h1, h2⟩, fun _ => ⟨_, rfl⟩⟩

theorem NewRightmostTrustedCountStrategy_ok_iff (hn : List Char) (n : Int) :
    (∃ st, NewRightmostTrustedCountStrategy hn n = .ok st) ↔
      hn.isEmpty = false ∧ 1 ≤ n ∧
        (canonicalHeaderKey hn = xForwardedForHdr ∨
          canonicalHeaderKey hn = forwardedHdr) := by
  rw [NewRightmostTrustedCountStrategy]
  by_cases h1 : hn.isEmpty = true
  · rw [if_pos h1]
    simp [h1]
  · rw [if_neg h1]
    by_cases h0 : n ≤ 0
    · rw [if_pos h0]
      constructor
      · rintro ⟨st, hst⟩
        exact Except.noConfusion hst
      · rintro ⟨-, hpos, -⟩
        omega
    · rw [if_neg h0]
      by_cases h2 : (canonicalHeaderKey hn != xForwardedForHdr &&
          canonicalHeaderKey hn != forwardedHdr) = true
      · rw [if_pos h2]
        simp only [Bool.and_eq_true, bne_iff_ne] at h2
        constructor
        · rintro ⟨st, hst⟩
          exact Except.noConfusion hst
        · rintro ⟨-, -, h | h⟩
          · exact absurd h h2.1
          · exact absurd h h2.2
      · rw [if_neg h2]
        simp only [Bool.and_eq_true, bne_iff_ne, not_and_or, not_not] at h2
        exact ⟨fun _ => ⟨by simpa using h1, by omega, h2⟩, fun _ => ⟨_, rfl⟩⟩

theorem NewRightmostTrustedRangeStrategy_ok_iff (hn : List Char)
    (ranges : List IPNet) :
    (∃ st, NewRightmostTrustedRangeStrategy hn ranges = .ok st) ↔
      hn.isEmpty = false ∧ (canonicalHeaderKey hn = xForwardedForHdr ∨
        canonicalHeaderKey hn = forwardedHdr) := by
  rw [NewRightmostTrustedRangeStrategy]
  by_cases h1 : hn.isEmpty = true
  · rw [if_pos h1]
    simp [h1]
  · rw [if_neg h1]
    by_cases h2 : (canonicalHeaderKey hn != xForwardedForHdr &&
        canonicalHeaderKey hn != forwardedHdr) = true
    · rw [if_pos h2]
      simp only [Bool.and_eq_true, bne_iff_ne] at h2
      constructor
      · rintro ⟨st, hst⟩
        exact Except.noConfusion hst
      · rintro ⟨-, h | h⟩
        · exact absurd h h2.1
        · exact absurd h h2.2
    · rw [if_neg h2]
      simp only [Bool.and_eq_true, bne_iff_ne, not_and_or, not_not] at h2
      exact ⟨fun _ => ⟨by simpa using h1, h2⟩, fun _ => ⟨_, rfl⟩⟩

/-- `AddressesAndRangesToIPNets` succeeds exactly when every entry is free
of a zone marker and parses as a CIDR range (with a `/`) or as a single
address (without). -/
theorem AddressesAndRangesToIPNets_ok_iff (rs : List (List Char)) :
    (∃ l, AddressesAndRangesToIPNets rs = .ok l) ↔
      ∀ r ∈ rs, r.contains '%' = false ∧
        (r.contains '/' = true → parseCIDR r ≠ none) ∧
        (r.contains '/' = false → ParseIP r ≠ none) := by
  induction rs with
  | nil =>
    constructor
    · intro _ r hr
      exact absurd hr (List.not_mem_nil r)
    · intro _
      exact ⟨[], rfl⟩
  | cons r rest ih =>
    by_cases hp : r.contains '%' = true
    · rw [AddressesAndRangesToIPNets, if_pos hp]
      constructor
      · rintro ⟨l, hl⟩
        exact Except.noConfusion hl
      · intro hall
        have := (hall r (List.mem_cons_self _ _)).1
        rw [this] at hp
        exact Bool.noConfusion hp
    · have hp' : r.contains '%' = false := by simpa using hp
      rw [AddressesAndRangesToIPNets, if_neg hp]
      by_cases hs : r.contains '/' = true
      · rw [if_pos hs]
        cases hc : parseCIDR r with
        | none =>
          constructor
          · rintro ⟨l, hl⟩
            exact Except.noConfusion hl
          · intro hall
            exact absurd hc ((hall r (List.mem_cons_self _ _)).2.1 hs)
        | some ipNet =>
          constructor
          · rintro ⟨l, hl⟩
            have hrest : ∃ l', AddressesAndRangesToIPNets rest = .ok l' := by
              cases hr : AddressesAndRangesToIPNets rest with
              | error e =>
                rw [hr] at hl
                replace hl : (Except.error e : Except (List Char) (List IPNet)) =
                  .ok l := hl
                exact Except.noConfusion hl
              | ok l' => exact ⟨l', rfl⟩
            intro x hx
            rcases List.mem_cons.mp hx with rfl | hx'
            · refine ⟨hp', fun _ => ?_, fun hsf => ?_⟩
              · rw [hc]
                simp
              · exact Bool.noConfusion (hs.symm.trans hsf)
            · exact ih.mp hrest x hx'
          · intro hall
            obtain ⟨l', hl'⟩ :=
              ih.mpr (fun x hx => hall x (List.mem_cons_of_mem _ hx))
            exact ⟨ipNet :: l', by rw [hl']; rfl⟩
      · have hs' : r.contains '/' = false := by simpa using hs
        rw [if_neg hs]
        cases hip : ParseIP r with
        | none =>
          constructor
          · rintro ⟨l, hl⟩
            exact Except.noConfusion hl
          · intro hall
            exact absurd hip ((hall r (List.mem_cons_self _ _)).2.2 hs')
        | some ip =>
          constructor
          · rintro ⟨l, hl⟩
            have hrest : ∃ l', AddressesAndRangesToIPNets rest = .ok l' := by
              cases hr : AddressesAndRangesToIPNets rest with
              | error e =>
                rw [hr] at hl
                replace hl : (Except.error e : Except (List Char) (List IPNet)) =
                  .ok l := hl
                exact Except.noConfusion hl
              | ok l' => exact ⟨l', rfl⟩
            intro x hx
            rcases List.mem_cons.mp hx with rfl | hx'
            · refine ⟨hp', fun hsf => ?_, fun _ => ?_⟩
              · exact Bool.noConfusion (hs'.symm.trans hsf)
              · rw [hip]
                simp
            · exact ih.mp hrest x hx'
          · intro hall
            obtain ⟨l', hl'⟩ :=
              ih.mpr (fun x hx => hall x (List.mem_cons_of_mem _ hx))
            exact ⟨_, by rw [hl']; rfl⟩

theorem RemoteAddrClientIP_ok (headers : Headers) (remoteAddr : List Char) :
    ∃ res, RemoteAddrClientIP headers remoteAddr = .ok res := by
  rw [RemoteAddrClientIP]
  obtain ⟨v, hv⟩ := goodIPAddr_ok remoteAddr
  rw [hv, bind_ok]
  cases v <;> exact ⟨_, rfl⟩

theorem SingleIPHeaderClientIP_ok (strat : SingleIPHeaderStrategy)
    (headers : Headers) (remoteAddr : List Char) :
    ∃ res, SingleIPHeaderStrategy.ClientIP strat headers remoteAddr =
      .ok res := by
  rw [SingleIPHeaderStrategy.ClientIP]
  split
  · exact ⟨_, rfl⟩
  · obtain ⟨v, hv⟩ := goodIPAddr_ok (lastHeader headers strat.headerName)
    rw [hv, bind_ok]
    cases v <;> exact ⟨_, rfl⟩

theorem LeftmostClientIP_ok (strat : LeftmostNonPrivateStrategy)
    (headers : Headers) (remoteAddr : List Char) :
    ∃ res, LeftmostNonPrivateStrategy.ClientIP strat headers remoteAddr =
      .ok res := by
  rw [LeftmostNonPrivateStrategy.ClientIP, getIPAddrList_eq, bind_ok]
  exact ⟨_, rfl⟩

theorem RightmostClientIP_ok (strat : RightmostNonPrivateStrategy)
    (headers : Headers) (remoteAddr : List Char) :
    ∃ res, RightmostNonPrivateStrategy.ClientIP strat headers remoteAddr =
      .ok res := by
  rw [RightmostNonPrivateStrategy.ClientIP, getIPAddrList_eq, bind_ok]
  exact ⟨_, rfl⟩

theorem RightmostCountClientIP_ok {strat : RightmostTrustedCountStrategy}
    (hpos : 0 < strat.trustedCount) (headers : Headers)
    (remoteAddr : List Char) :
    ∃ res, RightmostTrustedCountStrategy.ClientIP strat headers remoteAddr =
      .ok res := by
  obtain ⟨L, hL⟩ : ∃ L, getIPAddrList headers strat.headerName = .ok L :=
    ⟨_, getIPAddrList_eq headers strat.headerName⟩
  rw [RightmostTrustedCountStrategy.ClientIP, hL, bind_ok]
  by_cases hlt : (L.length : Int) - 1 - (strat.trustedCount - 1) < 0
  · rw [if_pos hlt]
    exact ⟨_, rfl⟩
  · have hbound : ((L.length : Int) - 1 - (strat.trustedCount - 1)).toNat <
        L.length := by omega
    rw [if_neg hlt, dif_pos hbound]
    cases L.get ⟨((L.length : Int) - 1 - (strat.trustedCount - 1)).toNat,
      hbound⟩ <;> exact ⟨_, rfl⟩

theorem RightmostRangeClientIP_ok (strat : RightmostTrustedRangeStrategy)
    (headers : Headers) (remoteAddr : List Char) :
    ∃ res, RightmostTrustedRangeStrategy.ClientIP strat headers remoteAddr =
      .ok res := by
  rw [RightmostTrustedRangeStrategy.ClientIP, getIPAddrList_eq, bind_ok]
  exact ⟨_, rfl⟩

/-- C6: each strategy constructor returns an error exactly for invalid
static configuration — an empty header name, a wrong header for the strategy
kind, a non-positive trusted count, and (for range lists) a zone marker or
an unparseable range literal — and per-request evaluation of every
constructible strategy always returns normally (`.ok`), signalling failure
only by its result value. -/
theorem C6_construction_errors :
    (∀ hn, (∃ st, NewSingleIPHeaderStrategy hn = .ok st) ↔
      hn.isEmpty = false ∧ canonicalHeaderKey hn ≠ xForwardedForHdr ∧
        canonicalHeaderKey hn ≠ forwardedHdr) ∧
    (∀ hn, (∃ st, NewLeftmostNonPrivateStrategy hn = .ok st) ↔
      hn.isEmpty = false ∧ (canonicalHeaderKey hn = xForwardedForHdr ∨
        canonicalHeaderKey hn = forwardedHdr)) ∧
    (∀ hn, (∃ st, NewRightmostNonPrivateStrategy hn = .ok st) ↔
      hn.isEmpty = false ∧ (canonicalHeaderKey hn = xForwardedForHdr ∨
        canonicalHeaderKey hn = forwardedHdr)) ∧
    (∀ hn n, (∃ st, NewRightmostTrustedCountStrategy hn n = .ok st) ↔
      hn.isEmpty = false ∧ 1 ≤ n ∧
        (canonicalHeaderKey hn = xForwardedForHdr ∨
          canonicalHeaderKey hn = forwardedHdr)) ∧
    (∀ hn ranges, (∃ st, NewRightmostTrustedRangeStrategy hn ranges = .ok st) ↔
      hn.isEmpty = false ∧ (canonicalHeaderKey hn = xForwardedForHdr ∨
        canonicalHeaderKey hn = forwardedHdr)) ∧
    (∀ rs, (∃ l, AddressesAndRangesToIPNets rs = .ok l) ↔
      ∀ r ∈ rs, r.contains '%' = false ∧
        (r.contains '/' = true → parseCIDR r ≠ none) ∧
        (r.contains '/' = false → ParseIP r ≠ none)) ∧
    (∀ headers remoteAddr,
      ∃ res, RemoteAddrClientIP headers remoteAddr = .ok res) ∧
    (∀ strat headers remoteAddr,
      ∃ res, SingleIPHeaderStrategy.ClientIP strat headers remoteAddr =
        .ok res) ∧
    (∀ strat headers remoteAddr,
      ∃ res, LeftmostNonPrivateStrategy.ClientIP strat headers remoteAddr =
        .ok res) ∧
    (∀ strat headers remoteAddr,
      ∃ res, RightmostNonPrivateStrategy.ClientIP strat headers remoteAddr =
        .ok res) ∧
    (∀ hn n strat, NewRightmostTrustedCountStrategy hn n = .ok strat →
      ∀ headers remoteAddr,
        ∃ res, RightmostTrustedCountStrategy.ClientIP strat headers remoteAddr =
          .ok res) ∧
    (∀ strat headers remoteAddr,
      ∃ res, RightmostTrustedRangeStrategy.ClientIP strat headers remoteAddr =
        .ok res) := by
  refine ⟨NewSingleIPHeaderStrategy_ok_iff, NewLeftmostNonPrivateStrategy_ok_iff,
    NewRightmostNonPrivateStrategy_ok_iff, NewRightmostTrustedCountStrategy_ok_iff,
    NewRightmostTrustedRangeStrategy_ok_iff, AddressesAndRangesToIPNets_ok_iff,
    RemoteAddrClientIP_ok, SingleIPHeaderClientIP_ok, LeftmostClientIP_ok,
    RightmostClientIP_ok, ?_, RightmostRangeClientIP_ok⟩
  intro hn n strat hstrat headers remoteAddr
  exact RightmostCountClientIP_ok
    (NewRightmostTrustedCountStrategy_inv hstrat).1 headers remoteAddr

/-- C6 witness: concrete constructions — a valid and an invalid single-IP
header, a trusted count of zero rejected, a zone-bearing range literal
rejected, a valid range list accepted, and panic-free evaluation of a
constructed trusted-count strategy on an empty header collection. -/
theorem C6_witness :
    (∃ st, NewSingleIPHeaderStrategy (str "X-Real-IP") = .ok st) ∧
      ¬(∃ st, NewSingleIPHeaderStrategy (str "X-Forwarded-For") = .ok st) ∧
      ¬(∃ st, NewRightmostTrustedCountStrategy (str "Forwarded") 0 = .ok st) ∧
      ¬(∃ l, AddressesAndRangesToIPNets [str "fe80::1%eth0"] = .ok l) ∧
      (∃ l, AddressesAndRangesToIPNets [str "192.168.0.0/16", str "3.3.3.3"] =
        .ok l) ∧
      (∃ res, RightmostTrustedCountStrategy.ClientIP
        ⟨str "X-Forwarded-For", 2⟩ (fun _ => []) [] = .ok res) := by
  refine ⟨?_, ?_, ?_, ?_, ?_, ?_⟩
  · exact (C6_construction_errors.1 (str "X-Real-IP")).mpr
      (by refine ⟨rfl, ?_, ?_⟩ <;> decide)
  · intro hex
    have := (C6_construction_errors.1 (str "X-Forwarded-For")).mp hex
    exact absurd this.2.1 (by decide)
  · intro hex
    have := (C6_construction_errors.2.2.2.1 (str "Forwarded") 0).mp hex
    omega
  · intro hex
    have := (C6_construction_errors.2.2.2.2.2.1 [str "fe80::1%eth0"]).mp hex
      (str "fe80::1%eth0") (List.mem_cons_self _ _)
    exact absurd this.1 (by decide)
  · exact (C6_construction_errors.2.2.2.2.2.1
      [str "192.168.0.0/16", str "3.3.3.3"]).mpr (by decide)
  · exact C6_construction_errors.2.2.2.2.2.2.2.2.2.2.1
      (str "X-Forwarded-For") 2 ⟨str "X-Forwarded-For", 2⟩ rfl (fun _ => []) []

/-! ### Claim C9: containment checks ignore IPv6 zones -/

/-- C9: the trusted-range and private/local containment checks read only the
numeric address — an entry with a zone is classified exactly as the same
address without one, the zone having been split off at parse time and kept
only for the returned string.  Concretely: `fe80::1%eth0` parses to the same
bytes as `fe80::1` with zone `eth0` held separately, is classified
private/local, and stringifies with the zone back; in the worked example the
returned client IP retains `%eth0`. -/
theorem C9_zone_ignored :
    (∀ ranges (a : IPAddr), trustedEntry ranges (some a) =
        isIPContainedInRanges a.ip ranges ∧
      isIPContainedInRanges a.ip ranges =
        isIPContainedInRanges (IPAddr.mk a.ip []).ip ranges) ∧
    (∀ ranges (a : IPAddr) rest,
      rightmostUntrustedScan ranges (some a :: rest) =
        if isIPContainedInRanges a.ip ranges then
          rightmostUntrustedScan ranges rest
        else a.string) ∧
    (∀ (a : IPAddr) rest, leftmostScan (some a :: rest) =
      if isPrivateOrLocal a.ip then leftmostScan rest else a.string) ∧
    ParseIPAddr (str "fe80::1%eth0") =
      .ok (some ⟨[254, 128, 0, 0, 0, 0, 0, 0, 0, 0, 0, 0, 0, 0, 0, 1],
        str "eth0"⟩) ∧
    ParseIPAddr (str "fe80::1") =
      .ok (some ⟨[254, 128, 0, 0, 0, 0, 0, 0, 0, 0, 0, 0, 0, 0, 0, 1], []⟩) ∧
    isPrivateOrLocal [254, 128, 0, 0, 0, 0, 0, 0, 0, 0, 0, 0, 0, 0, 0, 1] =
      true ∧
    IPAddr.string ⟨[254, 128, 0, 0, 0, 0, 0, 0, 0, 0, 0, 0, 0, 0, 0, 1],
      str "eth0"⟩ = str "fe80::1%eth0" ∧
    (AddressesAndRangesToIPNets [str "192.168.0.0/16", str "3.3.3.3"]).map
      (fun ranges => RightmostTrustedRangeStrategy.ClientIP
        ⟨str "X-Forwarded-For", ranges⟩
        (fun _ => [str "1.1.1.1, 2001:db8:cafe::99%eth0, 3.3.3.3, 192.168.1.1"])
        []) = .ok (.ok (str "2001:db8:cafe::99%eth0")) := by
  refine ⟨?_, ?_, ?_, rfl, rfl, rfl, rfl, rfl⟩
  · intro ranges a
    exact ⟨rfl, rfl⟩
  · intro ranges a rest
    by_cases hc : isIPContainedInRanges a.ip ranges = true
    · rw [rightmostUntrustedScan, if_pos hc]
    · rw [rightmostUntrustedScan, if_neg hc]
  · intro a rest
    by_cases hc : isPrivateOrLocal a.ip = true
    · have hb : ¬((!isPrivateOrLocal a.ip) = true) := by simp [hc]
      rw [leftmostScan, if_neg hb, if_pos hc]
    · have hb : (!isPrivateOrLocal a.ip) = true := by simpa using hc
      rw [leftmostScan, if_pos hb, if_neg hc]

/-! ### Claim C10: the public parser accepts unspecified addresses -/

/-- C10: the exported `ParseIPAddr` succeeds on `0.0.0.0` and `::` (both
unspecified), while the internal `goodIPAddr` wrapper used by the strategies
rejects them — so the rejection happens only in the wrapper, and the public
parser returns addresses no strategy ever yields (the remote-address
strategy, for instance, maps those very inputs to the empty result). -/
theorem C10_parser_vs_wrapper :
    ParseIPAddr (str "0.0.0.0") =
      .ok (some ⟨v4InV6Pre ++ [0, 0, 0, 0], []⟩) ∧
    ParseIPAddr (str "::") = .ok (some ⟨List.replicate 16 0, []⟩) ∧
    isUnspecified (v4InV6Pre ++ [0, 0, 0, 0]) = true ∧
    isUnspecified (List.replicate 16 0) = true ∧
    goodIPAddr (str "0.0.0.0") = .ok none ∧
    goodIPAddr (str "::") = .ok none ∧
    (∀ headers, RemoteAddrClientIP headers (str "0.0.0.0") = .ok []) ∧
    (∀ headers, RemoteAddrClientIP headers (str "::") = .ok []) :=
  ⟨rfl, rfl, rfl, rfl, rfl, rfl, fun _ => rfl, fun _ => rfl⟩

end Realclientip
